import Mathlib

/-!
Verification of the `sled-snapshots` snapshot-forest core.

We shallowly embed the Rust sources (src/delta.rs, src/delta_set.rs, src/delta_node.rs,
src/delta_map.rs, src/version_node.rs, src/version_forest.rs, src/transactions.rs) into
Lean.  Byte strings are lists of naturals, the `sled` key/value trees are association
lists, and every transactional operation returns a `TxResult`: `ok` models a commit,
`aborted` models the explicit `abort(())` outcome, and `crashed` models a panic (a panic
or an infinite loop never produces a committed state).  The `DeltaMap` is embedded at the
granularity of its linked-list nodes: an entry for a version is the list of delta nodes
reachable from its head node, each node carrying its sequence of deltas.  Fresh `sled`
IDs from `generate_id` are modelled with a monotonic counter `nextId`.
-/

namespace SledSnapshots

/-- Transaction outcome: commit, user abort, or panic (`expect`, index out of bounds,
or a non-terminating loop; none of these produce a committed state). -/
inductive TxResult (α : Type) where
  | ok (a : α)
  | aborted
  | crashed
  deriving DecidableEq, Repr

/-- Association-list lookup, first matching key (models a `sled::Tree` read). -/
def getE {κ α : Type} [DecidableEq κ] (m : List (κ × α)) (k : κ) : Option α :=
  (m.find? (fun e => e.1 = k)).map (fun e => e.2)

/-- Association-list write (models a `sled::Tree` insert, replacing any old value). -/
def setE {κ α : Type} [DecidableEq κ] (m : List (κ × α)) (k : κ) (a : α) : List (κ × α) :=
  (k, a) :: m.filter (fun e => ¬ e.1 = k)

/-- Association-list removal (models a `sled::Tree` remove). -/
def delE {κ α : Type} [DecidableEq κ] (m : List (κ × α)) (k : κ) : List (κ × α) :=
  m.filter (fun e => ¬ e.1 = k)

theorem find?_filter_of_ne {κ α : Type} [DecidableEq κ] (t : List (κ × α)) (k k' : κ) (h : ¬ k' = k) :
    (t.filter (fun e => ¬ e.1 = k)).find? (fun e => e.1 = k')
      = t.find? (fun e => e.1 = k') := by
  induction t with
  | nil => rfl
  | cons e t ih =>
    by_cases he : e.1 = k
    · have h1 : ¬ e.1 = k' := fun hc => h (by rw [← hc, he])
      rw [List.filter_cons_of_neg (by simp [he]), List.find?_cons_of_neg _ (by simp [h1])]
      exact ih
    · by_cases h2 : e.1 = k'
      · rw [List.filter_cons_of_pos (by simp [he]),
          List.find?_cons_of_pos _ (by simp [h2]), List.find?_cons_of_pos _ (by simp [h2])]
      · rw [List.filter_cons_of_pos (by simp [he]),
          List.find?_cons_of_neg _ (by simp [h2]), List.find?_cons_of_neg _ (by simp [h2])]
        exact ih

theorem find?_filter_self {κ α : Type} [DecidableEq κ] (t : List (κ × α)) (k : κ) :
    (t.filter (fun e => ¬ e.1 = k)).find? (fun e => e.1 = k) = none := by
  induction t with
  | nil => rfl
  | cons e t ih =>
    by_cases he : e.1 = k
    · rw [List.filter_cons_of_neg (by simp [he])]
      exact ih
    · rw [List.filter_cons_of_pos (by simp [he]), List.find?_cons_of_neg _ (by simp [he])]
      exact ih

theorem getE_setE {κ α : Type} [DecidableEq κ] (m : List (κ × α)) (k k' : κ) (a : α) :
    getE (setE m k a) k' = if k' = k then some a else getE m k' := by
  by_cases h : k' = k
  · subst h
    simp only [if_pos rfl, getE, setE]
    rw [List.find?_cons_of_pos _ (by simp)]
    rfl
  · have hk : ¬ k = k' := fun hh => h hh.symm
    simp only [if_neg h, getE, setE]
    rw [List.find?_cons_of_neg _ (by simp [hk]), find?_filter_of_ne m k k' h]

theorem getE_delE {κ α : Type} [DecidableEq κ] (m : List (κ × α)) (k k' : κ) :
    getE (delE m k) k' = if k' = k then none else getE m k' := by
  by_cases h : k' = k
  · subst h
    simp only [if_pos rfl, getE, delE]
    rw [find?_filter_self m k']
    rfl
  · simp only [if_neg h, getE, delE]
    rw [find?_filter_of_ne m k k' h]

/-- Byte strings (`IVec` / `&[u8]` in the source).  A list of naturals; writes produced
by the source encoders always stay below 256. -/
abbrev Bytes := List Nat

/-- src/delta.rs: `Delta` is `Insert(key, value)` or `Remove(key)`. -/
inductive Delta where
  | insert (key value : Bytes)
  | remove (key : Bytes)
  deriving DecidableEq, Repr

/-- Big-endian base-256 digits of `n` on `k` bytes; `beBytes 8 n` models
`(n as u64).to_be_bytes()` (src encoders write `usize`/`u64` lengths this way). -/
def beBytes : Nat → Nat → List Nat
  | 0, _ => []
  | k + 1, n => (n / 256 ^ k % 256) :: beBytes k n

/-- src/lib.rs `u64_from_be_slice`: big-endian decoding of a byte slice. -/
def fromBeBytes (l : List Nat) : Nat :=
  l.foldl (fun acc b => acc * 256 + b) 0

theorem length_beBytes (k n : Nat) : (beBytes k n).length = k := by
  induction k generalizing n with
  | zero => rfl
  | succ k ih => simp [beBytes, ih]

theorem foldl_beBytes (k n acc : Nat) :
    (beBytes k n).foldl (fun a b => a * 256 + b) acc = acc * 256 ^ k + n % 256 ^ k := by
  induction k generalizing acc with
  | zero => simp [beBytes, Nat.mod_one]
  | succ k ih =>
    simp only [beBytes, List.foldl]
    rw [ih]
    have h256 : (256 : Nat) ^ (k + 1) = 256 ^ k * 256 := by ring
    have hmod : n % 256 ^ (k + 1) = n % 256 ^ k + 256 ^ k * (n / 256 ^ k % 256) := by
      rw [h256, Nat.mod_mul]
    rw [hmod]; ring

theorem fromBeBytes_beBytes (k n : Nat) (h : n < 256 ^ k) :
    fromBeBytes (beBytes k n) = n := by
  unfold fromBeBytes
  rw [foldl_beBytes]
  simp [Nat.mod_eq_of_lt h]

/-- src/delta.rs `Delta::encode`: `num_key_bytes (8) ‖ num_value_bytes (8) ‖ key ‖ value`,
where a `Remove` writes `0` for `num_value_bytes` and no value bytes. -/
def Delta.encode : Delta → List Nat
  | .insert k v => beBytes 8 k.length ++ beBytes 8 v.length ++ k ++ v
  | .remove k => beBytes 8 k.length ++ beBytes 8 0 ++ k

/-- src/delta_set.rs: a delta set is stored as the concatenation of the encodings,
with no framing. -/
def encodeDeltaSet (D : List Delta) : List Nat :=
  (D.map Delta.encode).flatten

/-- src/delta_set.rs `RawDeltaIter::next` together with src/delta.rs `RawDelta` and the
`From<&RawDelta> for Delta` conversion: starting at offset 0, stop when the offset
reaches the end of the buffer, otherwise read the two big-endian length fields, slice
out key and value, emit `Remove` when `num_value_bytes == 0` and `Insert` otherwise,
and advance by the encoded size.  Any out-of-bounds slice panics in Rust; those runs
are modelled as `none`. -/
def decodeDeltas (b : List Nat) : Option (List Delta) :=
  if b.length = 0 then some []
  else
    if h : 16 + fromBeBytes (b.take 8) + fromBeBytes ((b.drop 8).take 8) ≤ b.length then
      (decodeDeltas
          (b.drop (16 + fromBeBytes (b.take 8) + fromBeBytes ((b.drop 8).take 8)))).map
        (fun t =>
          (if fromBeBytes ((b.drop 8).take 8) = 0 then
              Delta.remove ((b.drop 16).take (fromBeBytes (b.take 8)))
            else
              Delta.insert ((b.drop 16).take (fromBeBytes (b.take 8)))
                ((b.drop (16 + fromBeBytes (b.take 8))).take
                  (fromBeBytes ((b.drop 8).take 8)))) :: t)
    else none
termination_by b.length
decreasing_by simp [List.length_drop]; omega

theorem decodeDeltas_eq (b : List Nat) :
    decodeDeltas b =
      if b.length = 0 then some []
      else
        if _h : 16 + fromBeBytes (b.take 8) + fromBeBytes ((b.drop 8).take 8) ≤ b.length then
          (decodeDeltas
              (b.drop (16 + fromBeBytes (b.take 8) + fromBeBytes ((b.drop 8).take 8)))).map
            (fun t =>
              (if fromBeBytes ((b.drop 8).take 8) = 0 then
                  Delta.remove ((b.drop 16).take (fromBeBytes (b.take 8)))
                else
                  Delta.insert ((b.drop 16).take (fromBeBytes (b.take 8)))
                    ((b.drop (16 + fromBeBytes (b.take 8))).take
                      (fromBeBytes ((b.drop 8).take 8)))) :: t)
        else none := by
  conv_lhs => unfold decodeDeltas

theorem decodeDeltas_nil : decodeDeltas [] = some [] := by
  rw [decodeDeltas_eq]
  rfl

theorem take_len_append {α : Type} (l₁ l₂ : List α) (n : Nat) (h : l₁.length = n) :
    (l₁ ++ l₂).take n = l₁ := by
  subst h
  induction l₁ with
  | nil => simp
  | cons x t ih => simp [ih]

theorem drop_len_append {α : Type} (l₁ l₂ : List α) (n : Nat) (h : l₁.length = n) :
    (l₁ ++ l₂).drop n = l₂ := by
  subst h
  induction l₁ with
  | nil => simp
  | cons x t ih => simp [ih]

/-- The deltas that survive a byte-level round trip: every length fits in a `u64`
(always true of real buffers) and no `Insert` carries an empty value. -/
def Delta.roundTrippable : Delta → Prop
  | .insert k v => v ≠ [] ∧ k.length < 2 ^ 64 ∧ v.length < 2 ^ 64
  | .remove k => k.length < 2 ^ 64

theorem pow_256_8 : (256 : Nat) ^ 8 = 2 ^ 64 := by norm_num

theorem decodeDeltas_cons (d : Delta) (rest : List Nat) (hd : d.roundTrippable) :
    decodeDeltas (d.encode ++ rest) = (decodeDeltas rest).map (fun t => d :: t) := by
  cases d with
  | insert k v =>
    obtain ⟨hv, hk64, hv64⟩ := hd
    set A := beBytes 8 k.length with hA
    set B := beBytes 8 v.length with hB
    have hAl : A.length = 8 := length_beBytes 8 k.length
    have hBl : B.length = 8 := length_beBytes 8 v.length
    have henc : (Delta.insert k v).encode ++ rest = A ++ (B ++ (k ++ (v ++ rest))) := by
      simp [Delta.encode, List.append_assoc]
    rw [henc]
    have hlen : (A ++ (B ++ (k ++ (v ++ rest)))).length
        = 16 + k.length + v.length + rest.length := by
      simp [List.length_append, hAl, hBl]; omega
    have htake8 : (A ++ (B ++ (k ++ (v ++ rest)))).take 8 = A :=
      take_len_append A _ 8 hAl
    have hdrop8 : (A ++ (B ++ (k ++ (v ++ rest)))).drop 8 = B ++ (k ++ (v ++ rest)) :=
      drop_len_append A _ 8 hAl
    have hregroup16 : A ++ (B ++ (k ++ (v ++ rest))) = (A ++ B) ++ (k ++ (v ++ rest)) := by
      simp [List.append_assoc]
    have hdrop16 : (A ++ (B ++ (k ++ (v ++ rest)))).drop 16 = k ++ (v ++ rest) := by
      rw [hregroup16]
      exact drop_len_append (A ++ B) _ 16 (by simp [hAl, hBl])
    have hregroupk : A ++ (B ++ (k ++ (v ++ rest))) = ((A ++ B) ++ k) ++ (v ++ rest) := by
      simp [List.append_assoc]
    have hdropk : (A ++ (B ++ (k ++ (v ++ rest)))).drop (16 + k.length) = v ++ rest := by
      rw [hregroupk]
      exact drop_len_append ((A ++ B) ++ k) _ _ (by simp [hAl, hBl]; omega)
    have hregroupv : A ++ (B ++ (k ++ (v ++ rest))) = (((A ++ B) ++ k) ++ v) ++ rest := by
      simp [List.append_assoc]
    have hdropv : (A ++ (B ++ (k ++ (v ++ rest)))).drop (16 + k.length + v.length) = rest := by
      rw [hregroupv]
      exact drop_len_append (((A ++ B) ++ k) ++ v) _ _ (by simp [hAl, hBl]; omega)
    have hnk : fromBeBytes ((A ++ (B ++ (k ++ (v ++ rest)))).take 8) = k.length := by
      rw [htake8, hA]
      exact fromBeBytes_beBytes 8 k.length (by rw [pow_256_8]; exact hk64)
    have hnv : fromBeBytes (((A ++ (B ++ (k ++ (v ++ rest)))).drop 8).take 8) = v.length := by
      rw [hdrop8, take_len_append B _ 8 hBl, hB]
      exact fromBeBytes_beBytes 8 v.length (by rw [pow_256_8]; exact hv64)
    have hvne : ¬ v.length = 0 := by simpa [List.length_eq_zero] using hv
    rw [decodeDeltas_eq]
    rw [if_neg (by omega : ¬ (A ++ (B ++ (k ++ (v ++ rest)))).length = 0)]
    simp only [hnk, hnv]
    rw [dif_pos (by omega : 16 + k.length + v.length ≤ (A ++ (B ++ (k ++ (v ++ rest)))).length)]
    simp only [if_neg hvne, hdrop16, hdropk, hdropv,
      take_len_append k (v ++ rest) k.length rfl, take_len_append v rest v.length rfl]
  | remove k =>
    have hk64 : k.length < 2 ^ 64 := hd
    set A := beBytes 8 k.length with hA
    set B := beBytes 8 0 with hB
    have hAl : A.length = 8 := length_beBytes 8 k.length
    have hBl : B.length = 8 := length_beBytes 8 0
    have henc : (Delta.remove k).encode ++ rest = A ++ (B ++ (k ++ rest)) := by
      simp [Delta.encode, List.append_assoc]
    rw [henc]
    have hlen : (A ++ (B ++ (k ++ rest))).length = 16 + k.length + rest.length := by
      simp [List.length_append, hAl, hBl]; omega
    have htake8 : (A ++ (B ++ (k ++ rest))).take 8 = A := take_len_append A _ 8 hAl
    have hdrop8 : (A ++ (B ++ (k ++ rest))).drop 8 = B ++ (k ++ rest) :=
      drop_len_append A _ 8 hAl
    have hdrop16 : (A ++ (B ++ (k ++ rest))).drop 16 = k ++ rest := by
      rw [(by simp [List.append_assoc] : A ++ (B ++ (k ++ rest)) = (A ++ B) ++ (k ++ rest))]
      exact drop_len_append (A ++ B) _ 16 (by simp [hAl, hBl])
    have hdropk : (A ++ (B ++ (k ++ rest))).drop (16 + k.length + 0) = rest := by
      rw [(by simp [List.append_assoc] : A ++ (B ++ (k ++ rest)) = ((A ++ B) ++ k) ++ rest)]
      exact drop_len_append ((A ++ B) ++ k) _ _ (by simp [hAl, hBl]; omega)
    have hnk : fromBeBytes ((A ++ (B ++ (k ++ rest))).take 8) = k.length := by
      rw [htake8, hA]
      exact fromBeBytes_beBytes 8 k.length (by rw [pow_256_8]; exact hk64)
    have hnv : fromBeBytes (((A ++ (B ++ (k ++ rest))).drop 8).take 8) = 0 := by
      rw [hdrop8, take_len_append B _ 8 hBl, hB]
      exact fromBeBytes_beBytes 8 0 (by positivity)
    rw [decodeDeltas_eq]
    rw [if_neg (by omega : ¬ (A ++ (B ++ (k ++ rest))).length = 0)]
    simp only [hnk, hnv]
    rw [dif_pos (by omega : 16 + k.length + 0 ≤ (A ++ (B ++ (k ++ rest))).length)]
    simp only [if_pos (rfl : (0 : Nat) = 0), hdrop16, hdropk,
      take_len_append k rest k.length rfl]
    simp

theorem decodeDeltas_encodeDeltaSet (D : List Delta) (h : ∀ d ∈ D, d.roundTrippable) :
    decodeDeltas (encodeDeltaSet D) = some D := by
  induction D with
  | nil => exact decodeDeltas_nil
  | cons d t ih =>
    have hd : d.roundTrippable := h d (List.mem_cons_self d t)
    have ht : ∀ x ∈ t, x.roundTrippable := fun x hx => h x (List.mem_cons_of_mem d hx)
    show decodeDeltas (d.encode ++ encodeDeltaSet t) = some (d :: t)
    rw [decodeDeltas_cons d _ hd, ih ht]
    rfl

/-- C5 counterexample: the round trip fails for `Insert` with an empty value, whose
encoding is byte-identical to the encoding of `Remove` of the same key, so the decoder
returns `Remove` for it.  This refutes the claim for arbitrary byte strings. -/
theorem C5_counterexample :
    decodeDeltas (encodeDeltaSet [Delta.insert [0] []]) ≠ some [Delta.insert [0] []] ∧
    decodeDeltas (encodeDeltaSet [Delta.insert [0] []]) = some [Delta.remove [0]] := by
  have henc : encodeDeltaSet [Delta.insert [0] []] = (Delta.remove [0]).encode ++ [] := by
    simp [encodeDeltaSet, Delta.encode]
  have hrt : (Delta.remove [0]).roundTrippable := by
    show ([0] : Bytes).length < 2 ^ 64
    norm_num
  have hdec : decodeDeltas (encodeDeltaSet [Delta.insert [0] []]) = some [Delta.remove [0]] := by
    rw [henc, decodeDeltas_cons (Delta.remove [0]) [] hrt, decodeDeltas_nil]
    rfl
  exact ⟨by rw [hdec]; simp, hdec⟩

/-- C5 (amended): for every delta sequence whose lengths fit in a `u64` and in which no
`Insert` carries an empty value, decoding the concatenation of the encodings with the
delta-set iterator yields exactly the original sequence.  (`Insert` with empty value is
excluded because its encoding collides with the `Remove` marker `num_value_bytes == 0`.) -/
theorem C5_delta_codec_round_trip (D : List Delta) (h : ∀ d ∈ D, d.roundTrippable) :
    decodeDeltas (encodeDeltaSet D) = some D :=
  decodeDeltas_encodeDeltaSet D h

/-- C5 witness: the amended round trip theorem applied at a concrete delta sequence. -/
theorem C5_delta_codec_round_trip_witness :
    decodeDeltas (encodeDeltaSet [Delta.insert [1] [2], Delta.remove [3]])
      = some [Delta.insert [1] [2], Delta.remove [3]] := by
  have hwf : ∀ d ∈ [Delta.insert [1] [2], Delta.remove [3]], d.roundTrippable := by
    intro d hd
    simp only [List.mem_cons, List.not_mem_nil, or_false] at hd
    rcases hd with rfl | rfl
    · exact ⟨by simp, by norm_num, by norm_num⟩
    · show ([3] : Bytes).length < 2 ^ 64
      norm_num
  exact C5_delta_codec_round_trip [Delta.insert [1] [2], Delta.remove [3]] hwf

/-- src/version_node.rs `VersionNode`: optional parent (`NULL_VERSION` on disk means
none) and the ordered list of children. -/
structure VersionNode where
  parent : Option Nat
  children : List Nat
  deriving DecidableEq, Repr

/-- The three `sled` trees of one transaction plus the monotonic `generate_id` counter.
`forest` is the VersionForest; `dmap` is the DeltaMap restricted to its head entries:
the value at a version is the chain of delta nodes reachable from the head, each node
carrying its delta sequence (list-node keys are internal and never collide with
versions because all ids come from the same monotonic source); `data` is the caller's
data tree. -/
structure Sys where
  forest : List (Nat × VersionNode)
  dmap : List (Nat × List (List Delta))
  data : List (Bytes × Bytes)
  nextId : Nat
  deriving DecidableEq, Repr

def TxResult.bind {α β : Type} : TxResult α → (α → TxResult β) → TxResult β
  | .ok a, f => f a
  | .aborted, _ => .aborted
  | .crashed, _ => .crashed

def TxResult.map {α β : Type} (f : α → β) : TxResult α → TxResult β
  | .ok a => .ok (f a)
  | .aborted => .aborted
  | .crashed => .crashed

/-- One step of transactions.rs `apply_deltas`: `insert` and `remove` on the data tree
both return the old value; the recorded reverse delta is the pre-image value if the key
was present, otherwise a `Remove` of the key. -/
def applyOneDelta : Delta → List (Bytes × Bytes) → List (Bytes × Bytes) × Delta
  | .insert k v, data =>
    (setE data k v,
      match getE data k with
      | some old => Delta.insert k old
      | none => Delta.remove k)
  | .remove k, data =>
    (delE data k,
      match getE data k with
      | some old => Delta.insert k old
      | none => Delta.remove k)

/-- transactions.rs `apply_deltas`: apply each delta in order to the data tree, pushing
one reverse delta per applied delta, in the same order as the forward deltas. -/
def applyDeltas : List Delta → List (Bytes × Bytes) → List (Bytes × Bytes) × List Delta
  | [], data => (data, [])
  | d :: rest, data =>
    let fst := applyOneDelta d data
    let next := applyDeltas rest fst.1
    (next.1, fst.2 :: next.2)

/-- delta_map.rs `is_current_version`: true iff the DeltaMap holds no head entry at all
for `version` (`get_delta_list_head(version)?.is_none()`). -/
def isCurrentVersion (s : Sys) (v : Nat) : Bool :=
  (getE s.dmap v).isNone

/-- delta_map.rs `create_empty_version`: write a head node with no delta nodes. -/
def createEmptyVersion (v : Nat) (s : Sys) : Sys :=
  { s with dmap := setE s.dmap v [] }

/-- delta_map.rs `create_version_with_deltas`: allocate one fresh node id holding
`deltas` and point a fresh head at it; the entry becomes a one-node chain.  The id
allocation is retained so later version ids match the source exactly. -/
def createVersionWithDeltas (v : Nat) (deltas : List Delta) (s : Sys) : Sys :=
  { s with nextId := s.nextId + 1, dmap := setE s.dmap v [deltas] }

/-- delta_map.rs `remove_version`: remove the head entry and return the collected chain
of delta nodes (the chain nodes themselves are only read, not removed). -/
def removeVersionD (v : Nat) (s : Sys) : Sys × Option (List (List Delta)) :=
  ({ s with dmap := delE s.dmap v }, getE s.dmap v)

/-- delta_map.rs `prepend_raw_delta_nodes` with `recreate_sublist`: re-key the moved
nodes with one fresh id each and chain them in order; the last moved node is pointed at
the head's recorded TAIL key rather than at the head's first node, so every existing
node except the last drops out of the chain (`recreate_sublist` receives
`version_head.tail_key()`).  A missing head entry panics unless the move is empty,
which returns early. -/
def prependRawDeltaNodes (v : Nat) (moved : List (List Delta)) (s : Sys) : TxResult Sys :=
  if moved.isEmpty then .ok s
  else
    match getE s.dmap v with
    | none => .crashed
    | some existing =>
      let kept : List (List Delta) :=
        match existing.getLast? with
        | none => []
        | some lastNode => [lastNode]
      .ok { s with nextId := s.nextId + moved.length, dmap := setE s.dmap v (moved ++ kept) }

/-- version_forest.rs `create_version`: generate a fresh id, insert the new node FIRST,
then (for a child) read the parent node back from the updated forest and append the new
id to its children; abort when the parent read misses. -/
def createVersion : Option Nat → Sys → TxResult (Sys × Nat)
  | none, s =>
    .ok ({ s with nextId := s.nextId + 1, forest := setE s.forest s.nextId ⟨none, []⟩ },
         s.nextId)
  | some p, s =>
    match getE (setE s.forest s.nextId ⟨some p, []⟩) p with
    | none => .aborted
    | some pn =>
      .ok ({ s with nextId := s.nextId + 1,
                    forest := setE (setE s.forest s.nextId ⟨some p, []⟩) p
                      ⟨pn.parent, pn.children ++ [s.nextId]⟩ },
           s.nextId)

/-- version_forest.rs `remove_version`, child re-parenting loop: each listed child is
read (`unwrap` panics when it is missing) and rewritten with the new parent. -/
def reparentChildren (cs : List Nat) (p : Nat) (s : Sys) : TxResult Sys :=
  match cs with
  | [] => .ok s
  | c :: rest =>
    match getE s.forest c with
    | none => .crashed
    | some cn =>
      reparentChildren rest p { s with forest := setE s.forest c ⟨some p, cn.children⟩ }

/-- version_forest.rs `remove_version`: remove the node (missing: `Ok(None)`), abort on
a root, re-parent the children, and append them to the parent's children list; the
removed version itself is NOT removed from that list.  A missing parent entry is
silently skipped. -/
def removeVersionF (v : Nat) (s : Sys) : TxResult (Sys × Option VersionNode) :=
  match getE s.forest v with
  | none => .ok (s, none)
  | some rmNode =>
    let s1 : Sys := { s with forest := delE s.forest v }
    match rmNode.parent with
    | none => .aborted
    | some p =>
      (reparentChildren rmNode.children p s1).bind (fun s2 =>
        match getE s2.forest p with
        | none => .ok (s2, some rmNode)
        | some pn =>
          .ok ({ s2 with
                  forest := setE s2.forest p ⟨pn.parent, pn.children ++ rmNode.children⟩ },
               some rmNode))

/-- version_forest.rs `find_path_to_root`, inner loop: follow parent pointers starting
from a version whose node is already in hand; a dangling parent pointer panics and a
parent cycle never terminates (fuel exhaustion, `crashed`). -/
def pathToRootGo (forest : List (Nat × VersionNode)) :
    Nat → Nat → VersionNode → TxResult (List Nat)
  | 0, _, _ => .crashed
  | fuel + 1, v, node =>
    match node.parent with
    | none => .ok [v]
    | some p =>
      match getE forest p with
      | none => .crashed
      | some pn => (pathToRootGo forest fuel p pn).map (fun path => v :: path)

/-- version_forest.rs `find_path_to_root`: abort when the start version is missing.
The fuel `forest.length + 1` is enough for every terminating run, because a
terminating walk visits pairwise distinct keys of the forest. -/
def findPathToRoot (v : Nat) (s : Sys) : TxResult (List Nat) :=
  match getE s.forest v with
  | none => .aborted
  | some n => pathToRootGo s.forest (s.forest.length + 1) v n

/-- Length of the longest common prefix run of two lists. -/
def commonRunLen {α : Type} [DecidableEq α] : List α → List α → Nat
  | a :: as, b :: bs => if a = b then commonRunLen as bs + 1 else 0
  | _, _ => 0

/-- Length of the longest common suffix of two lists; the scan in
`find_path_between_versions` (zipping the two reversed, enumerated root paths and
advancing while the entries match) records the last matching index on each side, which
is exactly `length - commonSuffixLen`. -/
def commonSuffixLen {α : Type} [DecidableEq α] (l₁ l₂ : List α) : Nat :=
  commonRunLen l₁.reverse l₂.reverse

/-- version_forest.rs `VersionPath`. -/
inductive VersionPath where
  | pathExists (path : List Nat)
  | noPathExists
  deriving DecidableEq, Repr

/-- version_forest.rs `find_path_between_versions`: both root paths (abort when either
endpoint is missing), `NoPathExists` when the roots differ, otherwise the prefix of the
start path up to and including the join point followed by the reversed strict prefix of
the finish path below its join point. -/
def findPathBetweenVersions (start finish : Nat) (s : Sys) : TxResult VersionPath :=
  (findPathToRoot start s).bind (fun startToRoot =>
    (findPathToRoot finish s).bind (fun finishToRoot =>
      if startToRoot.getLast? ≠ finishToRoot.getLast? then .ok .noPathExists
      else
        let m := commonSuffixLen startToRoot finishToRoot
        .ok (.pathExists
          (startToRoot.take (startToRoot.length - m + 1)
            ++ (finishToRoot.take (finishToRoot.length - m)).reverse))))

/-- version_forest.rs `is_leaf` does not exist; transactions.rs only needs
`parent_of`; src/version_forest.rs `get_version(...).parent()` wrapper. -/
def parentOf (v : Nat) (s : Sys) : Option (Option Nat) :=
  (getE s.forest v).map (fun n => n.parent)

theorem delE_length_lt {κ α : Type} [DecidableEq κ] (m : List (κ × α)) (k : κ) (a : α)
    (h : getE m k = some a) : (delE m k).length < m.length := by
  have hfind : ∃ e, m.find? (fun e => e.1 = k) = some e := by
    unfold getE at h
    cases hf : m.find? (fun e => e.1 = k) with
    | none => rw [hf] at h; simp at h
    | some e => exact ⟨e, rfl⟩
  obtain ⟨e, he⟩ := hfind
  have hmem : e ∈ m := List.mem_of_find?_eq_some he
  have hkey : e.1 = k := by
    have := List.find?_some he
    simpa using this
  unfold delE
  rw [List.length_filter_lt_length_iff_exists]
  exact ⟨e, hmem, by simp [hkey]⟩

/-- version_forest.rs `delete_tree`: stack-based removal of a root and its descendants.
The model keeps the stack top at the head and pushes children reversed, which visits
the same set in a different order; all removals are key-wise and commute.  For each
version actually removed, the transactions.rs callback also removes its DeltaMap
entry. -/
def deleteTreeGo (forest : List (Nat × VersionNode)) (dmap : List (Nat × List (List Delta)))
    (queue : List Nat) : List (Nat × VersionNode) × List (Nat × List (List Delta)) :=
  match queue with
  | [] => (forest, dmap)
  | v :: rest =>
    match _hv : getE forest v with
    | none => deleteTreeGo forest dmap rest
    | some node => deleteTreeGo (delE forest v) (delE dmap v) (node.children.reverse ++ rest)
termination_by (forest.length, queue.length)
decreasing_by
  · exact Prod.Lex.right _ (by simp)
  · exact Prod.Lex.left _ _ (delE_length_lt _ _ _ ‹_›)

/-- transactions.rs `create_snapshot_tree`: just `forest.create_version(None)`; no
DeltaMap entry is written for the new root. -/
def createSnapshotTree (s : Sys) : TxResult (Sys × Nat) :=
  createVersion none s

/-- transactions.rs `create_child_snapshot`: abort when `make_current` is set but the
parent is not current; create the child; then write the empty DeltaMap entry at the
PARENT when `make_current`, at the child otherwise. -/
def createChildSnapshot (parentVersion : Nat) (makeCurrent : Bool) (s : Sys) :
    TxResult (Sys × Nat) :=
  if makeCurrent && ! isCurrentVersion s parentVersion then .aborted
  else
    (createVersion (some parentVersion) s).bind (fun p =>
      if makeCurrent then .ok (createEmptyVersion parentVersion p.1, p.2)
      else .ok (createEmptyVersion p.2 p.1, p.2))

/-- transactions.rs `create_child_snapshot_with_deltas`: abort when the stated current
version is not current; create the child; apply the forward deltas collecting reverse
deltas; REVERSE the collected reverse deltas and store them at the previously current
version. -/
def createChildSnapshotWithDeltas (currentVersion : Nat) (deltas : List Delta) (s : Sys) :
    TxResult (Sys × Nat) :=
  if ! isCurrentVersion s currentVersion then .aborted
  else
    (createVersion (some currentVersion) s).bind (fun p =>
      let applied := applyDeltas deltas p.1.data
      .ok (createVersionWithDeltas currentVersion applied.2.reverse
             { p.1 with data := applied.1 },
           p.2))

/-- transactions.rs `nudge_version`: pop all delta nodes at the target (panic when the
entry is absent), apply their deltas in chain order to the data tree collecting
reverse deltas, REVERSE them, and store them as the new one-node entry of the
stepped-from version. -/
def nudgeVersion (currentVersion targetVersion : Nat) (s : Sys) : TxResult Sys :=
  let popped := removeVersionD targetVersion s
  match popped.2 with
  | none => .crashed
  | some nodes =>
    let applied := applyDeltas nodes.flatten popped.1.data
    .ok (createVersionWithDeltas currentVersion applied.2.reverse
           { popped.1 with data := applied.1 })

/-- transactions.rs `set_current_version`, loop over `tuple_windows` of the path. -/
def nudgeAlong : List Nat → Sys → TxResult Sys
  | [], s => .ok s
  | [_], s => .ok s
  | v1 :: v2 :: rest, s => (nudgeVersion v1 v2 s).bind (nudgeAlong (v2 :: rest))

/-- transactions.rs `set_current_version`: abort when the stated current version is not
current; panic when no path exists; otherwise nudge along every adjacent pair of the
path. -/
def setCurrentVersion (currentVersion targetVersion : Nat) (s : Sys) : TxResult Sys :=
  if ! isCurrentVersion s currentVersion then .aborted
  else
    (findPathBetweenVersions currentVersion targetVersion s).bind (fun vp =>
      match vp with
      | .pathExists path => nudgeAlong path s
      | .noPathExists => .crashed)

/-- transactions.rs `delete_snapshot`, ancestor case: clone the removed delta nodes to
every child in recorded order. -/
def prependToAll (cs : List Nat) (nodes : List (List Delta)) (s : Sys) : TxResult Sys :=
  match cs with
  | [] => .ok s
  | c :: rest => (prependRawDeltaNodes c nodes s).bind (prependToAll rest nodes)

/-- transactions.rs `delete_snapshot`: abort on the current version; decide whether the
current version is a strict ancestor by probing `is_current` along the path to root
above the version; remove the version from the forest (abort on a root) and pop its
delta nodes; move the nodes to every child when the current version is an ancestor,
otherwise prepend them to the parent. -/
def deleteSnapshot (version : Nat) (s : Sys) : TxResult Sys :=
  if isCurrentVersion s version then .aborted
  else
    (findPathToRoot version s).bind (fun pathToRoot =>
      let currentIsAncestor := (pathToRoot.drop 1).any (fun v => isCurrentVersion s v)
      (removeVersionF version s).bind (fun q =>
        match q.2 with
        | none => .crashed
        | some rmNode =>
          let popped := removeVersionD version q.1
          match popped.2 with
          | none => .crashed
          | some rawNodes =>
            if currentIsAncestor then prependToAll rmNode.children rawNodes popped.1
            else
              match rmNode.parent with
              | none => .crashed
              | some p => prependRawDeltaNodes p rawNodes popped.1))

/-- transactions.rs `delete_snapshot_tree`: `delete_tree` with the callback removing
each deleted version's DeltaMap entry. -/
def deleteSnapshotTree (root : Nat) (s : Sys) : TxResult Sys :=
  let pruned := deleteTreeGo s.forest s.dmap [root]
  .ok { s with forest := pruned.1, dmap := pruned.2 }

/-- The six top-level transactions the invariant claims quantify over. -/
inductive TopOp where
  | createTree
  | createChild (parentVersion : Nat) (makeCurrent : Bool)
  | createChildWithDeltas (currentVersion : Nat) (deltas : List Delta)
  | setCurrent (currentVersion targetVersion : Nat)
  | deleteSnap (version : Nat)
  | deleteWholeTree (root : Nat)

/-- Run one top-level transaction. -/
def applyTop : TopOp → Sys → TxResult Sys
  | .createTree, s => (createSnapshotTree s).map (fun p => p.1)
  | .createChild p mc, s => (createChildSnapshot p mc s).map (fun q => q.1)
  | .createChildWithDeltas cv D, s => (createChildSnapshotWithDeltas cv D s).map (fun q => q.1)
  | .setCurrent cv tv, s => setCurrentVersion cv tv s
  | .deleteSnap v, s => deleteSnapshot v s
  | .deleteWholeTree r, s => deleteSnapshotTree r s

/-- States reachable from an empty forest (arbitrary initial data tree and id counter)
by committed top-level transactions with arbitrary caller arguments. -/
inductive Reachable : Sys → Prop where
  | init (data : List (Bytes × Bytes)) (n : Nat) : Reachable ⟨[], [], data, n⟩
  | step (s s' : Sys) (op : TopOp) : Reachable s → applyTop op s = .ok s' → Reachable s'

/-- The provable part of the coverage invariant: every DeltaMap head entry belongs to a
version still present in the VersionForest, and every forest key is below the id
counter. -/
def SysInv (s : Sys) : Prop :=
  (∀ v, getE s.dmap v ≠ none → getE s.forest v ≠ none) ∧
  (∀ v, getE s.forest v ≠ none → v < s.nextId)

theorem getE_setE_ne_none {κ α : Type} [DecidableEq κ] (m : List (κ × α)) (k v : κ) (a : α)
    (h : getE m v ≠ none) : getE (setE m k a) v ≠ none := by
  rw [getE_setE]
  by_cases hv : v = k <;> simp [hv, h]

theorem getE_setE_ne_none_inv {κ α : Type} [DecidableEq κ] (m : List (κ × α)) (k v : κ)
    (a : α) (h : getE (setE m k a) v ≠ none) : v = k ∨ getE m v ≠ none := by
  rw [getE_setE] at h
  by_cases hv : v = k
  · exact Or.inl hv
  · rw [if_neg hv] at h
    exact Or.inr h

theorem getE_delE_ne_none {κ α : Type} [DecidableEq κ] (m : List (κ × α)) (k v : κ)
    (h : getE (delE m k) v ≠ none) : ¬ v = k ∧ getE m v ≠ none := by
  rw [getE_delE] at h
  by_cases hv : v = k
  · rw [if_pos hv] at h
    exact absurd rfl h
  · rw [if_neg hv] at h
    exact ⟨hv, h⟩

/-- Modelled from the spec words of C4 only, for comparison with the code: current iff
the DeltaMap entry exists and its delta set is empty. -/
def specIsCurrent (s : Sys) (v : Nat) : Prop :=
  ∃ nodes, getE s.dmap v = some nodes ∧ nodes.flatten = ([] : List Delta)

/-- C4 counterexample: in a DeltaMap holding an empty entry for version 5 and no entry
for version 7, the code reports 5 as NOT current (the claim requires true) and 7 as
current (the claim requires false): `is_current_version` tests absence, not emptiness. -/
theorem C4_counterexample :
    (isCurrentVersion ⟨[], [(5, [])], [], 6⟩ 5 = false ∧
      getE (Sys.dmap ⟨[], [(5, [])], [], 6⟩) 5 = some [] ∧
      specIsCurrent ⟨[], [(5, [])], [], 6⟩ 5) ∧
    (isCurrentVersion ⟨[], [(5, [])], [], 6⟩ 7 = true ∧
      getE (Sys.dmap ⟨[], [(5, [])], [], 6⟩) 7 = none) := by
  refine ⟨⟨by decide, by decide, ⟨[], by decide, rfl⟩⟩, by decide, by decide⟩

/-- C4 (amended): `is_current_version(v)` returns true iff the DeltaMap holds NO head
entry for `v`; a present entry, even one with an empty delta set, is not current, and a
missing entry IS current. -/
theorem C4_is_current_contract (s : Sys) (v : Nat) :
    isCurrentVersion s v = true ↔ getE s.dmap v = none := by
  unfold isCurrentVersion
  cases getE s.dmap v <;> simp

theorem createVersion_ok (parent : Option Nat) (s s1 : Sys) (v : Nat)
    (h : createVersion parent s = .ok (s1, v)) :
    v = s.nextId ∧ s1.data = s.data ∧ s1.dmap = s.dmap ∧ s1.nextId = s.nextId + 1 := by
  unfold createVersion at h
  split at h
  · simp only [TxResult.ok.injEq, Prod.mk.injEq] at h
    obtain ⟨h1, h2⟩ := h
    subst h1; subst h2
    exact ⟨rfl, rfl, rfl, rfl⟩
  · split at h
    · exact TxResult.noConfusion h
    · simp only [TxResult.ok.injEq, Prod.mk.injEq] at h
      obtain ⟨h1, h2⟩ := h
      subst h1; subst h2
      exact ⟨rfl, rfl, rfl, rfl⟩

/-- C3 counterexample: starting from a one-root forest with an empty data tree,
`create_child_snapshot_with_deltas` with forward deltas `Insert [1] [7]; Insert [2] [8]`
collects the reverse deltas `Remove [1]; Remove [2]` in forward order but stores
`Remove [2]; Remove [1]` — the reversed order — at the frozen version. -/
theorem C3_counterexample :
    ((createChildSnapshotWithDeltas 0 [Delta.insert [1] [7], Delta.insert [2] [8]]
        ⟨[(0, ⟨none, []⟩)], [], [], 1⟩).map (fun p => getE p.1.dmap 0))
      = .ok (some [[Delta.remove [2], Delta.remove [1]]]) ∧
    (applyDeltas [Delta.insert [1] [7], Delta.insert [2] [8]] []).2
      = [Delta.remove [1], Delta.remove [2]] ∧
    ¬ ([Delta.remove [2], Delta.remove [1]] = [Delta.remove [1], Delta.remove [2]]) := by
  refine ⟨by decide, by decide, by decide⟩

/-- C3 (amended): both `create_child_snapshot_with_deltas` and the nudge step of
`set_current_version` collect the reverse deltas in the same order as the forward
deltas and then write them in REVERSED order (`reverse_deltas.reverse()`) into the
DeltaMap. -/
theorem C3_reverse_delta_storage_order (s : Sys) (cv : Nat) :
    (∀ D s' child, createChildSnapshotWithDeltas cv D s = .ok (s', child) →
        getE s'.dmap cv = some [(applyDeltas D s.data).2.reverse]) ∧
    (∀ tgt nodes s', getE s.dmap tgt = some nodes → nudgeVersion cv tgt s = .ok s' →
        getE s'.dmap cv = some [(applyDeltas nodes.flatten s.data).2.reverse]) := by
  constructor
  · intro D s' child h
    unfold createChildSnapshotWithDeltas at h
    by_cases hc : isCurrentVersion s cv
    · rw [if_neg (by simp [hc])] at h
      cases hcv : createVersion (some cv) s with
      | ok p =>
        obtain ⟨hid, hdata, hdmap, _⟩ := createVersion_ok (some cv) s p.1 p.2 (by rw [hcv])
        rw [hcv] at h
        simp only [TxResult.bind, TxResult.ok.injEq, Prod.mk.injEq] at h
        obtain ⟨h1, _⟩ := h
        subst h1
        simp only [createVersionWithDeltas, getE_setE, if_pos rfl, hdata, hdmap]
        simp
      | aborted => rw [hcv] at h; exact (TxResult.noConfusion h)
      | crashed => rw [hcv] at h; exact (TxResult.noConfusion h)
    · rw [if_pos (by simp [hc])] at h
      exact (TxResult.noConfusion h)
  · intro tgt nodes s' hn h
    unfold nudgeVersion at h
    simp only [removeVersionD, hn] at h
    simp only [TxResult.ok.injEq] at h
    subst h
    simp only [createVersionWithDeltas, getE_setE, if_pos rfl]
    simp

/-- C3 witness: the amended storage-order theorem applied at the concrete
counterexample run. -/
theorem C3_reverse_delta_storage_order_witness :
    getE
        (Sys.dmap ⟨[(0, ⟨none, [1]⟩), (1, ⟨some 0, []⟩)],
          [(0, [[Delta.remove [2], Delta.remove [1]]])],
          [([2], [8]), ([1], [7])], 3⟩) 0
      = some [(applyDeltas [Delta.insert [1] [7], Delta.insert [2] [8]]
          (Sys.data ⟨[(0, ⟨none, []⟩)], [], [], 1⟩)).2.reverse] :=
  (C3_reverse_delta_storage_order ⟨[(0, ⟨none, []⟩)], [], [], 1⟩ 0).1
    [Delta.insert [1] [7], Delta.insert [2] [8]]
    ⟨[(0, ⟨none, [1]⟩), (1, ⟨some 0, []⟩)],
      [(0, [[Delta.remove [2], Delta.remove [1]]])],
      [([2], [8]), ([1], [7])], 3⟩
    1 (by decide)

/-- C8 counterexample: `create_snapshot_tree` from the empty (reachable) state commits
and puts the new root in the VersionForest, but writes NO DeltaMap entry for it, so the
key set of the VersionForest differs from the key set of the DeltaMap. -/
theorem C8_counterexample :
    createSnapshotTree ⟨[], [], [], 0⟩ = .ok (⟨[(0, ⟨none, []⟩)], [], [], 1⟩, 0) ∧
    ¬ getE (Sys.forest ⟨[(0, ⟨none, []⟩)], [], [], 1⟩) 0 = none ∧
    getE (Sys.dmap ⟨[(0, ⟨none, []⟩)], [], [], 1⟩) 0 = none := by
  refine ⟨by decide, by decide, by decide⟩

/-- C7: delete_snapshot leaves the deleted version dangling in its parent's children
list.  From the empty state: create a tree (root 0), two chained plain child snapshots
(1 under 0, 2 under 1), then delete version 1.  The transaction commits; afterwards the
root's children list is `[1, 2]` although version 1 is gone from the forest, violating
the well-formedness invariant that every listed child exists. -/
theorem C7_bug_dangling_child :
    ((((createSnapshotTree ⟨[], [], [], 0⟩).map (fun p => p.1)).bind (fun s =>
        (createChildSnapshot 0 false s).map (fun p => p.1))).bind (fun s =>
        (createChildSnapshot 1 false s).map (fun p => p.1))).bind (deleteSnapshot 1)
      = .ok ⟨[(0, ⟨none, [1, 2]⟩), (2, ⟨some 0, []⟩)], [(2, [])], [], 3⟩ ∧
    getE (Sys.forest ⟨[(0, ⟨none, [1, 2]⟩), (2, ⟨some 0, []⟩)], [(2, [])], [], 3⟩) 1
      = none ∧
    1 ∈ VersionNode.children ⟨none, [1, 2]⟩ := by
  refine ⟨by decide, by decide, by decide⟩

/-- Scenario state for the deletion claim: from the empty state, create root 0, child 1
of 0 carrying `Insert [1] [11]` (1 becomes current), restore to 0, child 4 of 0
carrying `Insert [2] [22]` (4 becomes current), restore to 1.  The current version 1 is
then neither an ancestor nor a descendant of version 4. -/
def c2Base : TxResult Sys :=
  ((createSnapshotTree ⟨[], [], [], 0⟩).map (fun p => p.1)).bind (fun s =>
    ((createChildSnapshotWithDeltas 0 [Delta.insert [1] [11]] s).map (fun p => p.1)).bind
      (fun s1 =>
        (setCurrentVersion 1 0 s1).bind (fun s2 =>
          ((createChildSnapshotWithDeltas 0 [Delta.insert [2] [22]] s2).map
              (fun p => p.1)).bind
            (fun s3 => setCurrentVersion 4 1 s3))))

/-- C2: deleting a version whose current version is neither its ancestor nor its
descendant corrupts later restores.  In the `c2Base` scenario, deleting version 4
(non-current, non-root; the current version 1 sits in a sibling subtree) prepends its
deltas onto root 0, which lies between 1 and 4.  The subsequent restore from 1 to 0
then yields a data tree containing key `[2]`, while the identical restore sequence
without the deletion yields the empty data tree — the state of 0.  This contradicts
the claim and the code's own documented rule that deltas must only move away from the
current version. -/
theorem C2_bug_delete_breaks_restore :
    ((c2Base.bind (deleteSnapshot 4)).bind (setCurrentVersion 1 0)).map (fun s => s.data)
      = .ok [([2], [22])] ∧
    (c2Base.bind (setCurrentVersion 1 0)).map (fun s => s.data) = .ok [] := by
  refine ⟨by decide, by decide⟩

/-- C10: for an existing version `p` with no DeltaMap entry, and the fresh id not yet
used (true of every state the real id generator can produce),
`create_child_snapshot(p, make_current = true)` commits, writes the empty delta entry
at `p` itself rather than at the returned child, and leaves the child with no DeltaMap
entry; consequently `is_current_version` afterwards reports the new child as current
and `p` as not current. -/
theorem C10_create_child_make_current (s : Sys) (p : Nat) (pn : VersionNode)
    (hp : getE s.forest p = some pn)
    (hcur : getE s.dmap p = none)
    (hfreshF : ¬ p = s.nextId)
    (hfreshD : getE s.dmap s.nextId = none) :
    ∃ s', createChildSnapshot p true s = .ok (s', s.nextId) ∧
      getE s'.dmap p = some [] ∧
      getE s'.dmap s.nextId = none ∧
      isCurrentVersion s' s.nextId = true ∧
      isCurrentVersion s' p = false ∧
      getE s'.forest s.nextId = some ⟨some p, []⟩ := by
  have hnp : ¬ s.nextId = p := fun hh => hfreshF hh.symm
  have hIc : isCurrentVersion s p = true := by simp [isCurrentVersion, hcur]
  have hcv : createVersion (some p) s
      = .ok ({ s with nextId := s.nextId + 1,
                      forest := setE (setE s.forest s.nextId ⟨some p, []⟩) p
                        ⟨pn.parent, pn.children ++ [s.nextId]⟩ }, s.nextId) := by
    simp only [createVersion]
    rw [getE_setE, if_neg hfreshF, hp]
  refine ⟨({ s with
              nextId := s.nextId + 1,
              forest := setE (setE s.forest s.nextId ⟨some p, []⟩) p
                ⟨pn.parent, pn.children ++ [s.nextId]⟩,
              dmap := setE s.dmap p [] } : Sys), ?_, ?_, ?_, ?_, ?_, ?_⟩
  · unfold createChildSnapshot
    rw [if_neg (by simp [hIc]), hcv]
    simp only [TxResult.bind]
    rw [if_pos trivial]
    rfl
  · simp [getE_setE]
  · simp [getE_setE, if_neg hnp, hfreshD]
  · simp [isCurrentVersion, getE_setE, if_neg hnp, hfreshD]
  · simp [isCurrentVersion, getE_setE]
  · simp [getE_setE, if_neg hnp]

/-- C10 witness: the theorem applied at a one-root forest with empty DeltaMap. -/
theorem C10_create_child_make_current_witness :
    ∃ s', createChildSnapshot 0 true ⟨[(0, ⟨none, []⟩)], [], [], 1⟩ = .ok (s', 1) ∧
      getE s'.dmap 0 = some [] ∧
      getE s'.dmap 1 = none ∧
      isCurrentVersion s' 1 = true ∧
      isCurrentVersion s' 0 = false ∧
      getE s'.forest 1 = some ⟨some 0, []⟩ :=
  C10_create_child_make_current ⟨[(0, ⟨none, []⟩)], [], [], 1⟩ 0 ⟨none, []⟩
    (by decide) (by decide) (by decide) (by decide)

/-- C9: `delete_snapshot(v)` aborts when `v` is the current version (checked first) or
when `v` is a root (either it is current, or `remove_version` sees no parent and
aborts); an aborted transaction commits nothing, so all three trees are unchanged. -/
theorem C9_delete_abort_conditions (s : Sys) (v : Nat) :
    (isCurrentVersion s v = true → deleteSnapshot v s = .aborted) ∧
    (∀ n, getE s.forest v = some n → n.parent = none → deleteSnapshot v s = .aborted) := by
  constructor
  · intro h
    unfold deleteSnapshot
    rw [if_pos h]
  · intro n hn hroot
    by_cases hc : isCurrentVersion s v = true
    · unfold deleteSnapshot
      rw [if_pos hc]
    · unfold deleteSnapshot
      rw [if_neg hc]
      have hpath : findPathToRoot v s = .ok [v] := by
        unfold findPathToRoot
        rw [hn]
        simp only [pathToRootGo, hroot]
      rw [hpath]
      simp only [TxResult.bind]
      unfold removeVersionF
      rw [hn]
      simp only [hroot, TxResult.bind]

/-- A raw DeltaMap value at the linked-list level (src/delta_node.rs): a head node
(`next_key` or none, plus the raw tail field, meaningful only when `next_key` is set)
or a delta node (`next_key` plus its delta sequence). -/
inductive DMVal where
  | headE (next : Option Nat) (tailRaw : Nat)
  | nodeE (next : Option Nat) (deltas : List Delta)
  deriving DecidableEq, Repr

/-- The DeltaMap `sled` tree at the linked-list level, plus the id generator. -/
structure DMState where
  entries : List (Nat × DMVal)
  nextId : Nat
  deriving DecidableEq, Repr

/-- delta_map.rs `append_deltas`, embedded at the linked-list level INCLUDING the
variable shadowing in the source: after `create_node_with_deltas(None, new_deltas)`
returns the new key, `if let Some(tail_key) = head.tail_key()` rebinds `tail_key` to
the OLD tail key, and `tail_node.set_next_key(Some(tail_key))` therefore points the old
tail at itself instead of at the new node.  The new head still records the new node as
its tail.  Empty `new_deltas` returns `Ok` immediately; a missing head entry aborts
(`head.tail_key()` is `next_key().map(|_| raw_tail)` per delta_node.rs). -/
def appendDeltas (v : Nat) (newDeltas : List Delta) (dm : DMState) : TxResult DMState :=
  if newDeltas.isEmpty then .ok dm
  else
    match getE dm.entries v with
    | none => .aborted
    | some (DMVal.nodeE _ _) => .crashed
    | some (DMVal.headE next tailRaw) =>
      let newKey := dm.nextId
      let e1 := setE dm.entries newKey (DMVal.nodeE none newDeltas)
      match next.map (fun _ => tailRaw) with
      | none =>
        .ok ⟨setE e1 v (DMVal.headE (some (next.getD newKey)) newKey), dm.nextId + 1⟩
      | some oldTail =>
        match getE e1 oldTail with
        | some (DMVal.nodeE _ ds) =>
          let e2 := setE e1 oldTail (DMVal.nodeE (some oldTail) ds)
          .ok ⟨setE e2 v (DMVal.headE (some (next.getD newKey)) newKey), dm.nextId + 1⟩
        | _ => .crashed

/-- delta_map.rs `remove_version` chain traversal, with fuel: follow `next` pointers
collecting the delta nodes in order; the Rust loop never terminates on a cyclic chain
(modelled by `none` for every fuel). -/
def collectChain (entries : List (Nat × DMVal)) : Nat → Option Nat → Option (List (List Delta))
  | _, none => some []
  | 0, some _ => none
  | fuel + 1, some k =>
    match getE entries k with
    | some (DMVal.nodeE next ds) => (collectChain entries fuel next).map (fun t => ds :: t)
    | _ => none

/-- The delta-node sequence stored at a version, read through its head entry. -/
def storedDeltaNodes (dm : DMState) (v : Nat) (fuel : Nat) : Option (List (List Delta)) :=
  match getE dm.entries v with
  | some (DMVal.headE next _) => collectChain dm.entries fuel next
  | _ => none

theorem collectChain_self_loop (entries : List (Nat × DMVal)) (k : Nat) (ds : List Delta)
    (h : getE entries k = some (DMVal.nodeE (some k) ds)) :
    ∀ fuel, collectChain entries fuel (some k) = none := by
  intro fuel
  induction fuel with
  | zero => rfl
  | succ n ih =>
    simp only [collectChain, h, ih]
    rfl

/-- C6: `append_deltas` violates its append contract.  For version 7 whose stored
delta-node sequence is `[[Remove [0]]]` (readable with fuel 2), appending
`[Remove [1]]` commits, but the variable shadowing points the old tail node at ITSELF:
the traversal that the claim's postcondition is stated over never terminates for any
fuel (in Rust, `remove_version` would loop forever), instead of yielding the old
sequence followed by the new deltas.  Additionally, appending an empty delta slice to a
missing version returns `Ok` instead of aborting. -/
theorem C6_bug_append_self_links_tail :
    appendDeltas 7 [Delta.remove [1]]
        ⟨[(7, DMVal.headE (some 100) 100), (100, DMVal.nodeE none [Delta.remove [0]])], 101⟩
      = .ok ⟨[(7, DMVal.headE (some 100) 101),
              (100, DMVal.nodeE (some 100) [Delta.remove [0]]),
              (101, DMVal.nodeE none [Delta.remove [1]])], 102⟩ ∧
    (∀ fuel,
      storedDeltaNodes
          ⟨[(7, DMVal.headE (some 100) 101),
            (100, DMVal.nodeE (some 100) [Delta.remove [0]]),
            (101, DMVal.nodeE none [Delta.remove [1]])], 102⟩ 7 fuel = none) ∧
    storedDeltaNodes
        ⟨[(7, DMVal.headE (some 100) 100), (100, DMVal.nodeE none [Delta.remove [0]])], 101⟩
        7 2
      = some [[Delta.remove [0]]] ∧
    appendDeltas 9 [] ⟨[], 0⟩ = .ok ⟨[], 0⟩ := by
  refine ⟨by decide, ?_, by decide, by decide⟩
  exact fun fuel =>
    collectChain_self_loop
      [(7, DMVal.headE (some 100) 101),
        (100, DMVal.nodeE (some 100) [Delta.remove [0]]),
        (101, DMVal.nodeE none [Delta.remove [1]])]
      100 [Delta.remove [0]] (by decide) fuel

theorem createVersion_some_shape (p : Nat) (s s1 : Sys) (v : Nat)
    (h : createVersion (some p) s = .ok (s1, v)) :
    v = s.nextId ∧ s1.dmap = s.dmap ∧ s1.data = s.data ∧ s1.nextId = s.nextId + 1 ∧
    getE s1.forest p ≠ none ∧ getE s1.forest s.nextId ≠ none ∧
    (∀ w, getE s1.forest w ≠ none → w = p ∨ w = s.nextId ∨ getE s.forest w ≠ none) ∧
    (∀ w, getE s.forest w ≠ none → getE s1.forest w ≠ none) ∧
    (p = s.nextId ∨ getE s.forest p ≠ none) := by
  simp only [createVersion] at h
  split at h
  · exact TxResult.noConfusion h
  · rename_i pn hpn
    simp only [TxResult.ok.injEq, Prod.mk.injEq] at h
    obtain ⟨h1, h2⟩ := h
    subst h1
    refine ⟨h2.symm, rfl, rfl, rfl, ?_, ?_, ?_, ?_, ?_⟩
    · simp [getE_setE]
    · rw [getE_setE]
      by_cases hq : s.nextId = p
      · rw [if_pos hq]
        simp
      · rw [if_neg hq, getE_setE, if_pos rfl]
        simp
    · intro w hw
      rcases getE_setE_ne_none_inv _ _ _ _ hw with hwp | hw2
      · exact Or.inl hwp
      · rcases getE_setE_ne_none_inv _ _ _ _ hw2 with hwn | hw3
        · exact Or.inr (Or.inl hwn)
        · exact Or.inr (Or.inr hw3)
    · intro w hw
      exact getE_setE_ne_none _ _ _ _ (getE_setE_ne_none _ _ _ _ hw)
    · exact getE_setE_ne_none_inv _ _ _ _ (by rw [hpn]; simp)

theorem createVersion_none_shape (s s1 : Sys) (v : Nat)
    (h : createVersion none s = .ok (s1, v)) :
    v = s.nextId ∧ s1.dmap = s.dmap ∧ s1.data = s.data ∧ s1.nextId = s.nextId + 1 ∧
    (∀ w, getE s1.forest w ≠ none → w = s.nextId ∨ getE s.forest w ≠ none) ∧
    (∀ w, getE s.forest w ≠ none → getE s1.forest w ≠ none) := by
  simp only [createVersion] at h
  simp only [TxResult.ok.injEq, Prod.mk.injEq] at h
  obtain ⟨h1, h2⟩ := h
  subst h1
  refine ⟨h2.symm, rfl, rfl, rfl, ?_, ?_⟩
  · intro w hw
    exact getE_setE_ne_none_inv _ _ _ _ hw
  · intro w hw
    exact getE_setE_ne_none _ _ _ _ hw

theorem createSnapshotTree_inv (s s' : Sys) (r : Nat)
    (h : createSnapshotTree s = .ok (s', r)) (hinv : SysInv s) : SysInv s' := by
  obtain ⟨_, hdmap, _, hnext, hmem, hpres⟩ := createVersion_none_shape s s' r h
  constructor
  · intro v hv
    rw [hdmap] at hv
    exact hpres v (hinv.1 v hv)
  · intro v hv
    rw [hnext]
    rcases hmem v hv with hvn | hvo
    · omega
    · have := hinv.2 v hvo
      omega

theorem createVersion_some_bound (p : Nat) (s q1 : Sys) (v : Nat)
    (h : createVersion (some p) s = .ok (q1, v)) (hinv : SysInv s) :
    ∀ w, getE q1.forest w ≠ none → w < q1.nextId := by
  obtain ⟨_, _, _, hnext, _, _, hmem, _, hporig⟩ := createVersion_some_shape p s q1 v h
  intro w hw
  rw [hnext]
  rcases hmem w hw with rfl | rfl | hwo
  · rcases hporig with h1 | h2
    · omega
    · have := hinv.2 _ h2; omega
  · omega
  · have := hinv.2 w hwo; omega

theorem createChildSnapshot_inv (p : Nat) (mc : Bool) (s s' : Sys) (c : Nat)
    (h : createChildSnapshot p mc s = .ok (s', c)) (hinv : SysInv s) : SysInv s' := by
  unfold createChildSnapshot at h
  split at h
  · exact TxResult.noConfusion h
  · cases hcv : createVersion (some p) s with
    | ok q =>
      rw [hcv] at h
      obtain ⟨hid, hdmap, _, hnext, hpne, hnne, hmem, _, _⟩ :=
        createVersion_some_shape p s q.1 q.2 (by rw [hcv])
      have hbound : ∀ w, getE q.1.forest w ≠ none → w < q.1.nextId :=
        createVersion_some_bound p s q.1 q.2 (by rw [hcv]) hinv
      simp only [TxResult.bind] at h
      split at h <;>
        · simp only [TxResult.ok.injEq, Prod.mk.injEq] at h
          obtain ⟨h1, h2⟩ := h
          subst h1
          constructor
          · intro v hv
            simp only [createEmptyVersion] at hv
            rcases getE_setE_ne_none_inv _ _ _ _ hv with hveq | hvo
            · subst hveq
              first
                | exact hpne
                | (rw [hid]; exact hnne)
            · rw [hdmap] at hvo
              exact (createVersion_some_shape p s q.1 q.2 (by rw [hcv])).2.2.2.2.2.2.2.1 v
                (hinv.1 v hvo)
          · intro v hv
            exact hbound v hv
    | aborted => rw [hcv] at h; exact TxResult.noConfusion h
    | crashed => rw [hcv] at h; exact TxResult.noConfusion h

theorem createChildSnapshotWithDeltas_inv (cv : Nat) (D : List Delta) (s s' : Sys) (c : Nat)
    (h : createChildSnapshotWithDeltas cv D s = .ok (s', c)) (hinv : SysInv s) : SysInv s' := by
  unfold createChildSnapshotWithDeltas at h
  split at h
  · exact TxResult.noConfusion h
  · cases hcv : createVersion (some cv) s with
    | ok q =>
      rw [hcv] at h
      obtain ⟨hid, hdmap, _, hnext, hpne, hnne, hmem, _⟩ :=
        createVersion_some_shape cv s q.1 q.2 (by rw [hcv])
      simp only [TxResult.bind, TxResult.ok.injEq, Prod.mk.injEq] at h
      obtain ⟨h1, h2⟩ := h
      subst h1
      constructor
      · intro v hv
        simp only [createVersionWithDeltas, getE_setE] at hv
        by_cases hveq : v = cv
        · subst hveq
          exact hpne
        · rw [if_neg hveq, hdmap] at hv
          exact (createVersion_some_shape cv s q.1 q.2 (by rw [hcv])).2.2.2.2.2.2.2.1 v
            (hinv.1 v hv)
      · intro v hv
        simp only [createVersionWithDeltas] at hv ⊢
        have := createVersion_some_bound cv s q.1 q.2 (by rw [hcv]) hinv v hv
        rw [hnext] at this ⊢
        omega
    | aborted => rw [hcv] at h; exact TxResult.noConfusion h
    | crashed => rw [hcv] at h; exact TxResult.noConfusion h

theorem pathToRootGo_mem (forest : List (Nat × VersionNode)) :
    ∀ fuel v node l, getE forest v = some node →
      pathToRootGo forest fuel v node = .ok l →
      ∀ x ∈ l, getE forest x ≠ none := by
  intro fuel
  induction fuel with
  | zero =>
    intro v node l _ h
    exact absurd h (by simp [pathToRootGo])
  | succ n ih =>
    intro v node l hv h
    simp only [pathToRootGo] at h
    split at h
    · simp only [TxResult.ok.injEq] at h
      subst h
      intro x hx
      simp only [List.mem_singleton] at hx
      subst hx
      rw [hv]
      simp
    · rename_i p hp
      split at h
      · exact TxResult.noConfusion h
      · rename_i pn hg
        cases hrec : pathToRootGo forest n p pn with
        | ok t =>
          rw [hrec] at h
          simp only [TxResult.map, TxResult.ok.injEq] at h
          subst h
          intro x hx
          rcases List.mem_cons.mp hx with rfl | hxt
          · rw [hv]; simp
          · exact ih p pn t hg hrec x hxt
        | aborted => rw [hrec] at h; exact absurd h (by simp [TxResult.map])
        | crashed => rw [hrec] at h; exact absurd h (by simp [TxResult.map])

theorem findPathToRoot_mem (v : Nat) (s : Sys) (l : List Nat)
    (h : findPathToRoot v s = .ok l) : ∀ x ∈ l, getE s.forest x ≠ none := by
  unfold findPathToRoot at h
  cases hg : getE s.forest v with
  | none => rw [hg] at h; exact absurd h (by simp)
  | some n =>
    rw [hg] at h
    exact pathToRootGo_mem s.forest (s.forest.length + 1) v n l hg h

theorem findPathBetween_mem (a b : Nat) (s : Sys) (path : List Nat)
    (h : findPathBetweenVersions a b s = .ok (.pathExists path)) :
    ∀ x ∈ path, getE s.forest x ≠ none := by
  unfold findPathBetweenVersions at h
  cases hra : findPathToRoot a s with
  | ok S =>
    rw [hra] at h
    cases hrb : findPathToRoot b s with
    | ok F =>
      rw [hrb] at h
      simp only [TxResult.bind] at h
      split at h
      · simp only [TxResult.ok.injEq] at h
        exact absurd h (by simp)
      · simp only [TxResult.ok.injEq, VersionPath.pathExists.injEq] at h
        subst h
        intro x hx
        rcases List.mem_append.mp hx with hx1 | hx2
        · exact findPathToRoot_mem a s S hra x (List.mem_of_mem_take hx1)
        · exact findPathToRoot_mem b s F hrb x
            (List.mem_of_mem_take (List.mem_reverse.mp hx2))
    | aborted => rw [hrb] at h; exact absurd h (by simp [TxResult.bind])
    | crashed => rw [hrb] at h; exact absurd h (by simp [TxResult.bind])
  | aborted => rw [hra] at h; exact absurd h (by simp [TxResult.bind])
  | crashed => rw [hra] at h; exact absurd h (by simp [TxResult.bind])

theorem nudgeVersion_inv (v1 v2 : Nat) (s s' : Sys) (h : nudgeVersion v1 v2 s = .ok s') :
    s'.forest = s.forest ∧ s.nextId ≤ s'.nextId ∧
    (∀ v, getE s'.dmap v ≠ none → v = v1 ∨ getE s.dmap v ≠ none) := by
  unfold nudgeVersion at h
  simp only [removeVersionD] at h
  cases hg : getE s.dmap v2 with
  | none => rw [hg] at h; exact absurd h (by simp)
  | some nodes =>
    rw [hg] at h
    simp only [TxResult.ok.injEq] at h
    subst h
    refine ⟨rfl, by simp [createVersionWithDeltas], ?_⟩
    intro v hv
    simp only [createVersionWithDeltas] at hv
    rcases getE_setE_ne_none_inv _ _ _ _ hv with hveq | hvo
    · exact Or.inl hveq
    · exact Or.inr (getE_delE_ne_none _ _ _ hvo).2

theorem nudgeAlong_inv (path : List Nat) :
    ∀ s s', nudgeAlong path s = .ok s' →
      s'.forest = s.forest ∧ s.nextId ≤ s'.nextId ∧
      (∀ v, getE s'.dmap v ≠ none → v ∈ path ∨ getE s.dmap v ≠ none) := by
  induction path with
  | nil =>
    intro s s' h
    simp only [nudgeAlong, TxResult.ok.injEq] at h
    subst h
    exact ⟨rfl, Nat.le_refl _, fun v hv => Or.inr hv⟩
  | cons x rest ih =>
    intro s s' h
    cases rest with
    | nil =>
      simp only [nudgeAlong, TxResult.ok.injEq] at h
      subst h
      exact ⟨rfl, Nat.le_refl _, fun v hv => Or.inr hv⟩
    | cons y t =>
      simp only [nudgeAlong] at h
      cases hn : nudgeVersion x y s with
      | ok s1 =>
        rw [hn] at h
        simp only [TxResult.bind] at h
        obtain ⟨hf1, hi1, hd1⟩ := nudgeVersion_inv x y s s1 hn
        obtain ⟨hf2, hi2, hd2⟩ := ih s1 s' h
        refine ⟨by rw [hf2, hf1], Nat.le_trans hi1 hi2, ?_⟩
        intro v hv
        rcases hd2 v hv with hvp | hvo
        · exact Or.inl (List.mem_cons_of_mem x hvp)
        · rcases hd1 v hvo with hveq | hvs
          · exact Or.inl (by rw [hveq]; exact List.mem_cons_self x (y :: t))
          · exact Or.inr hvs
      | aborted => rw [hn] at h; exact absurd h (by simp [TxResult.bind])
      | crashed => rw [hn] at h; exact absurd h (by simp [TxResult.bind])

theorem setCurrentVersion_inv (cv tv : Nat) (s s' : Sys)
    (h : setCurrentVersion cv tv s = .ok s') (hinv : SysInv s) : SysInv s' := by
  unfold setCurrentVersion at h
  split at h
  · exact TxResult.noConfusion h
  · cases hp : findPathBetweenVersions cv tv s with
    | ok vp =>
      rw [hp] at h
      simp only [TxResult.bind] at h
      cases vp with
      | pathExists path =>
        obtain ⟨hf, hi, hd⟩ := nudgeAlong_inv path s s' h
        constructor
        · intro v hv
          rw [hf]
          rcases hd v hv with hvp | hvo
          · exact findPathBetween_mem cv tv s path hp v hvp
          · exact hinv.1 v hvo
        · intro v hv
          rw [hf] at hv
          have := hinv.2 v hv
          omega
      | noPathExists => exact TxResult.noConfusion h
    | aborted => rw [hp] at h; exact absurd h (by simp [TxResult.bind])
    | crashed => rw [hp] at h; exact absurd h (by simp [TxResult.bind])

theorem reparentChildren_shape (cs : List Nat) (p : Nat) :
    ∀ s s2, reparentChildren cs p s = .ok s2 →
      s2.dmap = s.dmap ∧ s2.data = s.data ∧ s2.nextId = s.nextId ∧
      (∀ v, getE s.forest v ≠ none → getE s2.forest v ≠ none) ∧
      (∀ v, getE s2.forest v ≠ none → getE s.forest v ≠ none) := by
  induction cs with
  | nil =>
    intro s s2 h
    simp only [reparentChildren, TxResult.ok.injEq] at h
    subst h
    exact ⟨rfl, rfl, rfl, fun v hv => hv, fun v hv => hv⟩
  | cons c rest ih =>
    intro s s2 h
    simp only [reparentChildren] at h
    split at h
    · exact TxResult.noConfusion h
    · rename_i cn hcn
      obtain ⟨h1, h2, h3, h4, h5⟩ := ih _ s2 h
      refine ⟨h1, h2, h3, ?_, ?_⟩
      · intro v hv
        exact h4 v (getE_setE_ne_none _ _ _ _ hv)
      · intro v hv
        rcases getE_setE_ne_none_inv _ _ _ _ (h5 v hv) with hveq | hvo
        · subst hveq
          rw [hcn]
          simp
        · exact hvo

theorem removeVersionF_shape (ver : Nat) (s s1 : Sys) (rm : Option VersionNode)
    (h : removeVersionF ver s = .ok (s1, rm)) :
    s1.dmap = s.dmap ∧ s1.data = s.data ∧ s1.nextId = s.nextId ∧
    (∀ v, ¬ v = ver → getE s.forest v ≠ none → getE s1.forest v ≠ none) ∧
    (∀ v, getE s1.forest v ≠ none → getE s.forest v ≠ none) := by
  unfold removeVersionF at h
  split at h
  · simp only [TxResult.ok.injEq, Prod.mk.injEq] at h
    obtain ⟨h1, _⟩ := h
    subst h1
    exact ⟨rfl, rfl, rfl, fun v _ hv => hv, fun v hv => hv⟩
  · rename_i rmNode hrm
    split at h
    · exact TxResult.noConfusion h
    · rename_i p hp
      dsimp only at h
      cases hrc : reparentChildren rmNode.children p
          { s with forest := delE s.forest ver } with
      | ok s2 =>
        rw [hrc] at h
        simp only [TxResult.bind] at h
        obtain ⟨hd, hdat, hn, hfwd, hbwd⟩ := reparentChildren_shape rmNode.children p _ s2 hrc
        have hdel_fwd : ∀ v, ¬ v = ver → getE s.forest v ≠ none →
            getE (delE s.forest ver) v ≠ none := by
          intro v hne hv
          rw [getE_delE, if_neg hne]
          exact hv
        have hdel_bwd : ∀ v, getE (delE s.forest ver) v ≠ none → getE s.forest v ≠ none := by
          intro v hv
          exact (getE_delE_ne_none _ _ _ hv).2
        split at h
        · simp only [TxResult.ok.injEq, Prod.mk.injEq] at h
          obtain ⟨h1, _⟩ := h
          subst h1
          exact ⟨hd, hdat, hn, fun v hne hv => hfwd v (hdel_fwd v hne hv),
            fun v hv => hdel_bwd v (hbwd v hv)⟩
        · rename_i pn hpn
          simp only [TxResult.ok.injEq, Prod.mk.injEq] at h
          obtain ⟨h1, _⟩ := h
          subst h1
          refine ⟨hd, hdat, hn, ?_, ?_⟩
          · intro v hne hv
            exact getE_setE_ne_none _ _ _ _ (hfwd v (hdel_fwd v hne hv))
          · intro v hv
            rcases getE_setE_ne_none_inv _ _ _ _ hv with hveq | hvo
            · subst hveq
              exact hdel_bwd v (hbwd v (by rw [hpn]; simp))
            · exact hdel_bwd v (hbwd v hvo)
      | aborted => rw [hrc] at h; exact absurd h (by simp [TxResult.bind])
      | crashed => rw [hrc] at h; exact absurd h (by simp [TxResult.bind])

theorem prependRawDeltaNodes_shape (c : Nat) (nodes : List (List Delta)) (s s' : Sys)
    (h : prependRawDeltaNodes c nodes s = .ok s') :
    s'.forest = s.forest ∧ s'.data = s.data ∧ s.nextId ≤ s'.nextId ∧
    (∀ v, getE s'.dmap v ≠ none → getE s.dmap v ≠ none) := by
  unfold prependRawDeltaNodes at h
  split at h
  · simp only [TxResult.ok.injEq] at h
    subst h
    exact ⟨rfl, rfl, Nat.le_refl _, fun v hv => hv⟩
  · split at h
    · exact TxResult.noConfusion h
    · rename_i existing hex
      simp only [TxResult.ok.injEq] at h
      subst h
      refine ⟨rfl, rfl, by simp, ?_⟩
      intro v hv
      rcases getE_setE_ne_none_inv _ _ _ _ hv with hveq | hvo
      · subst hveq
        rw [hex]
        simp
      · exact hvo

theorem prependToAll_shape (cs : List Nat) (nodes : List (List Delta)) :
    ∀ s s', prependToAll cs nodes s = .ok s' →
      s'.forest = s.forest ∧ s'.data = s.data ∧ s.nextId ≤ s'.nextId ∧
      (∀ v, getE s'.dmap v ≠ none → getE s.dmap v ≠ none) := by
  induction cs with
  | nil =>
    intro s s' h
    simp only [prependToAll, TxResult.ok.injEq] at h
    subst h
    exact ⟨rfl, rfl, Nat.le_refl _, fun v hv => hv⟩
  | cons c rest ih =>
    intro s s' h
    simp only [prependToAll] at h
    cases hp : prependRawDeltaNodes c nodes s with
    | ok s1 =>
      rw [hp] at h
      simp only [TxResult.bind] at h
      obtain ⟨hf1, hd1, hi1, hm1⟩ := prependRawDeltaNodes_shape c nodes s s1 hp
      obtain ⟨hf2, hd2, hi2, hm2⟩ := ih s1 s' h
      exact ⟨by rw [hf2, hf1], by rw [hd2, hd1], Nat.le_trans hi1 hi2,
        fun v hv => hm1 v (hm2 v hv)⟩
    | aborted => rw [hp] at h; exact absurd h (by simp [TxResult.bind])
    | crashed => rw [hp] at h; exact absurd h (by simp [TxResult.bind])

theorem deleteSnapshot_inv (ver : Nat) (s s' : Sys)
    (h : deleteSnapshot ver s = .ok s') (hinv : SysInv s) : SysInv s' := by
  unfold deleteSnapshot at h
  split at h
  · exact TxResult.noConfusion h
  · cases hpr : findPathToRoot ver s with
    | ok pr =>
      rw [hpr] at h
      simp only [TxResult.bind] at h
      cases hrf : removeVersionF ver s with
      | ok q =>
        rw [hrf] at h
        simp only [TxResult.bind] at h
        obtain ⟨hqd, hqdat, hqn, hqfwd, hqbwd⟩ := removeVersionF_shape ver s q.1 q.2 (by
          rw [hrf])
        have hmain : (∀ v, getE s'.dmap v ≠ none →
            ¬ v = ver ∧ getE s.dmap v ≠ none) ∧ s'.forest = q.1.forest ∧
            q.1.nextId ≤ s'.nextId := by
          split at h
          · exact TxResult.noConfusion h
          · rename_i rmNode hrm
            simp only [removeVersionD] at h
            split at h
            · exact TxResult.noConfusion h
            · rename_i rawNodes hraw
              split at h
              · obtain ⟨hf, _, hi, hm⟩ :=
                  prependToAll_shape rmNode.children rawNodes _ s' h
                refine ⟨?_, by rw [hf], by simpa using hi⟩
                intro v hv
                have := hm v hv
                simp only [hqd] at this
                exact getE_delE_ne_none _ _ _ this
              · split at h
                · exact TxResult.noConfusion h
                · rename_i p hp
                  obtain ⟨hf, _, hi, hm⟩ := prependRawDeltaNodes_shape p rawNodes _ s' h
                  refine ⟨?_, by rw [hf], by simpa using hi⟩
                  intro v hv
                  have := hm v hv
                  simp only [hqd] at this
                  exact getE_delE_ne_none _ _ _ this
        obtain ⟨hdm, hfor, hnid⟩ := hmain
        constructor
        · intro v hv
          obtain ⟨hne, hvd⟩ := hdm v hv
          rw [hfor]
          exact hqfwd v hne (hinv.1 v hvd)
        · intro v hv
          rw [hfor] at hv
          have := hinv.2 v (hqbwd v hv)
          omega
      | aborted => rw [hrf] at h; exact absurd h (by simp [TxResult.bind])
      | crashed => rw [hrf] at h; exact absurd h (by simp [TxResult.bind])
    | aborted => rw [hpr] at h; exact absurd h (by simp [TxResult.bind])
    | crashed => rw [hpr] at h; exact absurd h (by simp [TxResult.bind])

theorem deleteTreeGo_nil (f : List (Nat × VersionNode)) (d : List (Nat × List (List Delta))) :
    deleteTreeGo f d [] = (f, d) := by
  unfold deleteTreeGo
  rfl

theorem deleteTreeGo_cons_none (f : List (Nat × VersionNode))
    (d : List (Nat × List (List Delta))) (c : Nat) (rest : List Nat)
    (h : getE f c = none) :
    deleteTreeGo f d (c :: rest) = deleteTreeGo f d rest := by
  conv_lhs => unfold deleteTreeGo
  rw [h]

theorem deleteTreeGo_cons_some (f : List (Nat × VersionNode))
    (d : List (Nat × List (List Delta))) (c : Nat) (rest : List Nat) (node : VersionNode)
    (h : getE f c = some node) :
    deleteTreeGo f d (c :: rest)
      = deleteTreeGo (delE f c) (delE d c) (node.children.reverse ++ rest) := by
  conv_lhs => unfold deleteTreeGo
  rw [h]

theorem deleteTreeGo_covered :
    ∀ (forest : List (Nat × VersionNode)) (dmap : List (Nat × List (List Delta)))
      (queue : List Nat),
      (∀ v, getE dmap v ≠ none → getE forest v ≠ none) →
      ((∀ v, getE (deleteTreeGo forest dmap queue).2 v ≠ none →
          getE (deleteTreeGo forest dmap queue).1 v ≠ none) ∧
       (∀ v, getE (deleteTreeGo forest dmap queue).1 v ≠ none → getE forest v ≠ none)) := by
  intro forest dmap queue
  induction forest, dmap, queue using deleteTreeGo.induct with
  | case1 f d =>
    intro hc
    rw [deleteTreeGo_nil]
    exact ⟨hc, fun v hv => hv⟩
  | case2 f d c rest hnone ih =>
    intro hc
    rw [deleteTreeGo_cons_none f d c rest hnone]
    exact ih hc
  | case3 f d c rest node hsome ih =>
    intro hc
    rw [deleteTreeGo_cons_some f d c rest node hsome]
    have hc' : ∀ v, getE (delE d c) v ≠ none → getE (delE f c) v ≠ none := by
      intro v hv
      obtain ⟨hne, hvd⟩ := getE_delE_ne_none _ _ _ hv
      rw [getE_delE, if_neg hne]
      exact hc v hvd
    obtain ⟨ih1, ih2⟩ := ih hc'
    refine ⟨ih1, ?_⟩
    intro v hv
    exact (getE_delE_ne_none _ _ _ (ih2 v hv)).2

theorem deleteSnapshotTree_inv (r : Nat) (s s' : Sys)
    (h : deleteSnapshotTree r s = .ok s') (hinv : SysInv s) : SysInv s' := by
  unfold deleteSnapshotTree at h
  simp only [TxResult.ok.injEq] at h
  subst h
  obtain ⟨h1, h2⟩ := deleteTreeGo_covered s.forest s.dmap [r] hinv.1
  exact ⟨h1, fun v hv => hinv.2 v (h2 v hv)⟩

theorem applyTop_inv (op : TopOp) (s s' : Sys)
    (h : applyTop op s = .ok s') (hinv : SysInv s) : SysInv s' := by
  cases op with
  | createTree =>
    simp only [applyTop] at h
    cases hc : createSnapshotTree s with
    | ok q =>
      rw [hc] at h
      simp only [TxResult.map, TxResult.ok.injEq] at h
      subst h
      exact createSnapshotTree_inv s q.1 q.2 (by rw [hc]) hinv
    | aborted => rw [hc] at h; exact absurd h (by simp [TxResult.map])
    | crashed => rw [hc] at h; exact absurd h (by simp [TxResult.map])
  | createChild p mc =>
    simp only [applyTop] at h
    cases hc : createChildSnapshot p mc s with
    | ok q =>
      rw [hc] at h
      simp only [TxResult.map, TxResult.ok.injEq] at h
      subst h
      exact createChildSnapshot_inv p mc s q.1 q.2 (by rw [hc]) hinv
    | aborted => rw [hc] at h; exact absurd h (by simp [TxResult.map])
    | crashed => rw [hc] at h; exact absurd h (by simp [TxResult.map])
  | createChildWithDeltas cv D =>
    simp only [applyTop] at h
    cases hc : createChildSnapshotWithDeltas cv D s with
    | ok q =>
      rw [hc] at h
      simp only [TxResult.map, TxResult.ok.injEq] at h
      subst h
      exact createChildSnapshotWithDeltas_inv cv D s q.1 q.2 (by rw [hc]) hinv
    | aborted => rw [hc] at h; exact absurd h (by simp [TxResult.map])
    | crashed => rw [hc] at h; exact absurd h (by simp [TxResult.map])
  | setCurrent cv tv => exact setCurrentVersion_inv cv tv s s' h hinv
  | deleteSnap v => exact deleteSnapshot_inv v s s' h hinv
  | deleteWholeTree r => exact deleteSnapshotTree_inv r s s' h hinv

theorem reachable_inv (s : Sys) (h : Reachable s) : SysInv s := by
  induction h with
  | init data n =>
    constructor
    · intro v hv
      exact absurd rfl hv
    · intro v hv
      exact absurd rfl hv
  | step s s' op _ hstep ih => exact applyTop_inv op s s' hstep ih

/-- C8 (amended): after every committed top-level transaction from a reachable state,
every version with a DeltaMap head entry is still a version of the VersionForest (the
two key sets are NOT equal: current versions, the fresh root included, have no DeltaMap
entry at all); and `create_snapshot_tree` writes no DeltaMap entry for the root it
creates — the root is current precisely because its entry is missing. -/
theorem C8_coverage (s s' : Sys) (op : TopOp) (hr : Reachable s)
    (h : applyTop op s = .ok s') :
    (∀ v, getE s'.dmap v ≠ none → getE s'.forest v ≠ none) ∧
    (∀ t r, createSnapshotTree s = .ok (t, r) →
      t.dmap = s.dmap ∧ isCurrentVersion t r = true) := by
  have hinv := reachable_inv s hr
  constructor
  · exact (applyTop_inv op s s' h hinv).1
  · intro t r hc
    obtain ⟨hid, hdmap, _, _, _, _⟩ := createVersion_none_shape s t r hc
    subst hid
    refine ⟨hdmap, ?_⟩
    have hfresh : getE s.dmap s.nextId = none := by
      cases hg : getE s.dmap s.nextId with
      | none => rfl
      | some q =>
        have h1 : getE s.forest s.nextId ≠ none := hinv.1 s.nextId (by rw [hg]; simp)
        have h2 := hinv.2 s.nextId h1
        omega
    simp [isCurrentVersion, hdmap, hfresh]

/-- C8 witness: the amended theorem applied to the concrete `create_snapshot_tree`
transaction from the empty state. -/
theorem C8_coverage_witness :
    (∀ v, getE (Sys.dmap ⟨[(0, ⟨none, []⟩)], [], [], 1⟩) v ≠ none →
      getE (Sys.forest ⟨[(0, ⟨none, []⟩)], [], [], 1⟩) v ≠ none) ∧
    (∀ t r, createSnapshotTree ⟨[], [], [], 0⟩ = .ok (t, r) →
      t.dmap = Sys.dmap ⟨[], [], [], 0⟩ ∧ isCurrentVersion t r = true) :=
  C8_coverage ⟨[], [], [], 0⟩ ⟨[(0, ⟨none, []⟩)], [], [], 1⟩ TopOp.createTree
    (Reachable.init [] 0) (by decide)

theorem applyDeltas_append (A B : List Delta) :
    ∀ d, applyDeltas (A ++ B) d
      = ((applyDeltas B (applyDeltas A d).1).1,
         (applyDeltas A d).2 ++ (applyDeltas B (applyDeltas A d).1).2) := by
  induction A with
  | nil => intro d; simp [applyDeltas]
  | cons a t ih =>
    intro d
    simp only [List.cons_append, applyDeltas, List.append_eq, ih]

theorem applyOneDelta_congr (δ : Delta) (d1 d2 : List (Bytes × Bytes))
    (h : ∀ k, getE d1 k = getE d2 k) :
    (applyOneDelta δ d1).2 = (applyOneDelta δ d2).2 ∧
    (∀ k, getE (applyOneDelta δ d1).1 k = getE (applyOneDelta δ d2).1 k) := by
  cases δ with
  | insert k0 v =>
    constructor
    · simp only [applyOneDelta, h k0]
    · intro k
      simp only [applyOneDelta, getE_setE]
      by_cases hk : k = k0
      · simp [hk]
      · simp [hk, h k]
  | remove k0 =>
    constructor
    · simp only [applyOneDelta, h k0]
    · intro k
      simp only [applyOneDelta, getE_delE]
      by_cases hk : k = k0
      · simp [hk]
      · simp [hk, h k]

theorem applyDeltas_congr (D : List Delta) :
    ∀ d1 d2, (∀ k, getE d1 k = getE d2 k) →
      (applyDeltas D d1).2 = (applyDeltas D d2).2 ∧
      (∀ k, getE (applyDeltas D d1).1 k = getE (applyDeltas D d2).1 k) := by
  induction D with
  | nil => intro d1 d2 h; exact ⟨rfl, h⟩
  | cons δ t ih =>
    intro d1 d2 h
    obtain ⟨h2, h1⟩ := applyOneDelta_congr δ d1 d2 h
    obtain ⟨ht2, ht1⟩ := ih (applyOneDelta δ d1).1 (applyOneDelta δ d2).1 h1
    constructor
    · simp only [applyDeltas, h2, ht2]
    · intro k
      simp only [applyDeltas]
      exact ht1 k

theorem applyOneDelta_reverse (δ : Delta) (d : List (Bytes × Bytes)) :
    ∀ k, getE (applyOneDelta (applyOneDelta δ d).2 (applyOneDelta δ d).1).1 k
      = getE d k := by
  intro k
  cases δ with
  | insert k0 v =>
    simp only [applyOneDelta]
    cases hg : getE d k0 with
    | some old =>
      simp only [applyOneDelta, getE_setE]
      by_cases hk : k = k0
      · simp [hk, hg]
      · simp [hk]
    | none =>
      simp only [applyOneDelta, getE_delE, getE_setE]
      by_cases hk : k = k0
      · simp [hk, hg]
      · simp [hk]
  | remove k0 =>
    simp only [applyOneDelta]
    cases hg : getE d k0 with
    | some old =>
      simp only [applyOneDelta, getE_setE, getE_delE]
      by_cases hk : k = k0
      · simp [hk, hg]
      · simp [hk]
    | none =>
      simp only [applyOneDelta, getE_delE]
      by_cases hk : k = k0
      · simp [hk, hg]
      · simp [hk]

/-- P2 in the form the code realises it: applying the collected reverse deltas in
REVERSED order undoes the forward application, extensionally on the data tree. -/
theorem applyDeltas_reverse_undo (D : List Delta) :
    ∀ d k,
      getE (applyDeltas ((applyDeltas D d).2.reverse) (applyDeltas D d).1).1 k
        = getE d k := by
  induction D with
  | nil => intro d k; simp [applyDeltas]
  | cons δ t ih =>
    intro d k
    simp only [applyDeltas, List.reverse_cons]
    rw [applyDeltas_append]
    have hmid := ih (applyOneDelta δ d).1
    have hone : ∀ x,
        getE (applyOneDelta (applyOneDelta δ d).2
            (applyDeltas ((applyDeltas t (applyOneDelta δ d).1).2.reverse)
              (applyDeltas t (applyOneDelta δ d).1).1).1).1 x
          = getE d x := by
      intro x
      have hc := (applyOneDelta_congr (applyOneDelta δ d).2 _ _ hmid).2 x
      rw [hc]
      exact applyOneDelta_reverse δ d x
    have hsingle : ∀ (r : Delta) (dd : List (Bytes × Bytes)),
        (applyDeltas [r] dd).1 = (applyOneDelta r dd).1 := by
      intro r dd
      simp [applyDeltas]
    rw [hsingle]
    exact hone k

/-- The data tree obtained by applying, for each listed version in order, the flattened
delta-node chain stored at that version. -/
def chainData (dm : List (Nat × List (List Delta))) (d : List (Bytes × Bytes))
    (l : List Nat) : List (Bytes × Bytes) :=
  l.foldl (fun acc v => (applyDeltas ((getE dm v).getD []).flatten acc).1) d

theorem chainData_nil (dm : List (Nat × List (List Delta))) (d : List (Bytes × Bytes)) :
    chainData dm d [] = d := rfl

theorem chainData_cons (dm : List (Nat × List (List Delta))) (d : List (Bytes × Bytes))
    (v : Nat) (l : List Nat) :
    chainData dm d (v :: l)
      = chainData dm ((applyDeltas ((getE dm v).getD []).flatten d).1) l := rfl

theorem chainData_congr (l : List Nat) :
    ∀ (dm1 dm2 : List (Nat × List (List Delta))) (d : List (Bytes × Bytes)),
      (∀ v ∈ l, getE dm1 v = getE dm2 v) → chainData dm1 d l = chainData dm2 d l := by
  induction l with
  | nil => intro dm1 dm2 d _; rfl
  | cons v l ih =>
    intro dm1 dm2 d h
    rw [chainData_cons, chainData_cons, h v (List.mem_cons_self v l)]
    exact ih dm1 dm2 _ (fun w hw => h w (List.mem_cons_of_mem v hw))

theorem TxResult.bind_assoc {α β γ : Type} (r : TxResult α) (f : α → TxResult β)
    (g : β → TxResult γ) : (r.bind f).bind g = r.bind (fun a => (f a).bind g) := by
  cases r <;> rfl

theorem nudgeVersion_shape (x y : Nat) (s s1 : Sys) (h : nudgeVersion x y s = .ok s1) :
    ∃ nodes, getE s.dmap y = some nodes ∧
      s1.data = (applyDeltas nodes.flatten s.data).1 ∧
      s1.dmap = setE (delE s.dmap y) x [(applyDeltas nodes.flatten s.data).2.reverse] ∧
      s1.forest = s.forest := by
  unfold nudgeVersion at h
  simp only [removeVersionD] at h
  cases hg : getE s.dmap y with
  | none => rw [hg] at h; exact absurd h (by simp)
  | some nodes =>
    rw [hg] at h
    simp only [TxResult.ok.injEq] at h
    subst h
    exact ⟨nodes, rfl, rfl, rfl, rfl⟩

theorem nudgeVersion_runs (x y : Nat) (s : Sys) (nodes : List (List Delta))
    (hg : getE s.dmap y = some nodes) :
    nudgeVersion x y s
      = .ok (createVersionWithDeltas x (applyDeltas nodes.flatten s.data).2.reverse
          { s with dmap := delE s.dmap y, data := (applyDeltas nodes.flatten s.data).1 }) := by
  unfold nudgeVersion
  simp only [removeVersionD, hg]

theorem nudgeAlong_frame (path : List Nat) :
    ∀ s s', nudgeAlong path s = .ok s' →
      s'.forest = s.forest ∧ (∀ v, v ∉ path → getE s'.dmap v = getE s.dmap v) := by
  induction path with
  | nil =>
    intro s s' h
    simp only [nudgeAlong, TxResult.ok.injEq] at h
    subst h
    exact ⟨rfl, fun v _ => rfl⟩
  | cons x rest ih =>
    intro s s' h
    cases rest with
    | nil =>
      simp only [nudgeAlong, TxResult.ok.injEq] at h
      subst h
      exact ⟨rfl, fun v _ => rfl⟩
    | cons y t =>
      simp only [nudgeAlong] at h
      cases hn : nudgeVersion x y s with
      | ok s1 =>
        rw [hn] at h
        simp only [TxResult.bind] at h
        obtain ⟨nodes, hg, hdata, hdmap, hforest⟩ := nudgeVersion_shape x y s s1 hn
        obtain ⟨hf2, hfr2⟩ := ih s1 s' h
        refine ⟨by rw [hf2, hforest], ?_⟩
        intro v hv
        have hvx : ¬ v = x := fun hh => hv (hh ▸ List.mem_cons_self x (y :: t))
        have hvy : ¬ v = y := fun hh =>
          hv (by rw [hh]; exact List.mem_cons_of_mem x (List.mem_cons_self y t))
        rw [hfr2 v (fun hh => hv (List.mem_cons_of_mem x hh)), hdmap, getE_setE,
          if_neg hvx, getE_delE, if_neg hvy]
      | aborted => rw [hn] at h; exact absurd h (by simp [TxResult.bind])
      | crashed => rw [hn] at h; exact absurd h (by simp [TxResult.bind])

theorem nudgeAlong_snoc (A : List Nat) :
    ∀ (z x : Nat) (s : Sys), A.getLast? = some z →
      nudgeAlong (A ++ [x]) s = (nudgeAlong A s).bind (fun s1 => nudgeVersion z x s1) := by
  induction A with
  | nil => intro z x s hz; exact absurd hz (by simp)
  | cons a rest ih =>
    intro z x s hz
    cases rest with
    | nil =>
      simp only [List.getLast?_singleton, Option.some.injEq] at hz
      subst hz
      have hid : ∀ r : TxResult Sys, r.bind (fun s1 => nudgeAlong [x] s1) = r := by
        intro r
        cases r <;> rfl
      show (nudgeVersion a x s).bind (fun s1 => nudgeAlong [x] s1)
        = (TxResult.ok s).bind (fun s1 => nudgeVersion a x s1)
      rw [hid]
      rfl
    | cons b t =>
      have hz' : (b :: t).getLast? = some z := by
        rw [← hz]
        exact List.getLast?_cons_cons.symm
      show (nudgeVersion a b s).bind (fun s1 => nudgeAlong ((b :: t) ++ [x]) s1)
        = ((nudgeVersion a b s).bind (fun s1 => nudgeAlong (b :: t) s1)).bind
            (fun s1 => nudgeVersion z x s1)
      rw [TxResult.bind_assoc]
      cases hn : nudgeVersion a b s with
      | ok s1 =>
        simp only [TxResult.bind]
        exact ih z x s1 hz'
      | aborted => rfl
      | crashed => rfl

/-- The heart of the restoration proof: running the nudge loop along a duplicate-free
path applies exactly the originally stored delta chains in order, leaves the last path
element with no DeltaMap entry, and the same loop along the reversed path restores the
original data tree extensionally. -/
theorem nudgeAlong_run (rest : List Nat) :
    ∀ (x : Nat) (s s' : Sys), (x :: rest).Nodup →
      nudgeAlong (x :: rest) s = .ok s' →
      s'.data = chainData s.dmap s.data rest ∧
      (∀ z, rest.getLast? = some z → getE s'.dmap z = none) ∧
      (∃ s'', nudgeAlong (x :: rest).reverse s' = .ok s'' ∧
        (∀ k, getE s''.data k = getE s.data k)) := by
  induction rest with
  | nil =>
    intro x s s' _ h
    simp only [nudgeAlong, TxResult.ok.injEq] at h
    subst h
    refine ⟨rfl, ?_, ⟨_, rfl, fun k => rfl⟩⟩
    intro z hz
    exact absurd hz (by simp)
  | cons y t ih =>
    intro x s s' hnd h
    simp only [nudgeAlong] at h
    cases hn : nudgeVersion x y s with
    | ok s1 =>
      rw [hn] at h
      simp only [TxResult.bind] at h
      obtain ⟨nodes, hg, hdata, hdmap, hforest⟩ := nudgeVersion_shape x y s s1 hn
      have hxny : x ∉ y :: t := (List.nodup_cons.mp hnd).1
      have hnd' : (y :: t).Nodup := (List.nodup_cons.mp hnd).2
      have hynt : y ∉ t := (List.nodup_cons.mp hnd').1
      obtain ⟨hC1, hC4, s2, hrev, hdataeq⟩ := ih y s1 s' hnd' h
      have hdm_t : ∀ v ∈ t, getE s1.dmap v = getE s.dmap v := by
        intro v hv
        have hvx : ¬ v = x := fun hh => hxny (hh ▸ List.mem_cons_of_mem y hv)
        have hvy : ¬ v = y := fun hh => hynt (hh ▸ hv)
        rw [hdmap, getE_setE, if_neg hvx, getE_delE, if_neg hvy]
      have hchain : s'.data = chainData s.dmap s.data (y :: t) := by
        rw [chainData_cons, hg]
        show s'.data = chainData s.dmap ((applyDeltas (List.flatten nodes) s.data).1) t
        rw [hC1, hdata]
        exact chainData_congr t s1.dmap s.dmap _ hdm_t
      refine ⟨hchain, ?_, ?_⟩
      · intro z hz
        cases t with
        | nil =>
          simp only [List.getLast?_singleton, Option.some.injEq] at hz
          subst hz
          have hs' : s1 = s' := by
            simpa only [nudgeAlong, TxResult.ok.injEq] using h
          rw [← hs', hdmap, getE_setE,
            if_neg (fun hh : y = x => hxny (by rw [← hh]; exact List.mem_cons_self y [])),
            getE_delE, if_pos rfl]
        | cons c t' =>
          exact hC4 z (by rw [← hz]; exact List.getLast?_cons_cons.symm)
      · -- round trip
        have hx_frame_fwd : getE s'.dmap x = getE s1.dmap x :=
          (nudgeAlong_frame (y :: t) s1 s' h).2 x hxny
        have hx_frame_rev : getE s2.dmap x = getE s'.dmap x :=
          (nudgeAlong_frame (y :: t).reverse s' s2 hrev).2 x
            (fun hh => hxny (List.mem_reverse.mp hh))
        have hx_entry : getE s2.dmap x
            = some [(applyDeltas nodes.flatten s.data).2.reverse] := by
          rw [hx_frame_rev, hx_frame_fwd, hdmap, getE_setE, if_pos rfl]
        have hlastrev : (y :: t).reverse.getLast? = some y := by
          rw [List.getLast?_reverse]
          rfl
        have hrun := nudgeVersion_runs y x s2 _ hx_entry
        refine ⟨createVersionWithDeltas y
            (applyDeltas [(applyDeltas nodes.flatten s.data).2.reverse].flatten
              s2.data).2.reverse
            { s2 with dmap := delE s2.dmap x,
                      data := (applyDeltas
                        [(applyDeltas nodes.flatten s.data).2.reverse].flatten
                        s2.data).1 }, ?_, ?_⟩
        · rw [List.reverse_cons, nudgeAlong_snoc _ y x s' hlastrev, hrev]
          simp only [TxResult.bind]
          exact hrun
        · intro k
          show getE (applyDeltas
              [(applyDeltas nodes.flatten s.data).2.reverse].flatten s2.data).1 k
            = getE s.data k
          have hflat : [(applyDeltas nodes.flatten s.data).2.reverse].flatten
              = (applyDeltas nodes.flatten s.data).2.reverse := by simp
          rw [hflat]
          have hcongr := (applyDeltas_congr (applyDeltas nodes.flatten s.data).2.reverse
            s2.data s1.data hdataeq).2 k
          rw [hcongr, hdata]
          exact applyDeltas_reverse_undo nodes.flatten s.data k
    | aborted => rw [hn] at h; exact absurd h (by simp [TxResult.bind])
    | crashed => rw [hn] at h; exact absurd h (by simp [TxResult.bind])

/-- A terminating walk along parent pointers: the head node exists, each step follows
its `parent` field, and the last node is a root. -/
inductive IsRootPath (forest : List (Nat × VersionNode)) : List Nat → Prop where
  | single (v : Nat) (n : VersionNode) (hv : getE forest v = some n)
      (hp : n.parent = none) : IsRootPath forest [v]
  | step (v : Nat) (n : VersionNode) (p : Nat) (t : List Nat)
      (hv : getE forest v = some n) (hp : n.parent = some p)
      (h : IsRootPath forest (p :: t)) : IsRootPath forest (v :: p :: t)

theorem pathToRootGo_isRootPath (forest : List (Nat × VersionNode)) :
    ∀ fuel v node l, getE forest v = some node →
      pathToRootGo forest fuel v node = .ok l →
      IsRootPath forest l ∧ l.head? = some v := by
  intro fuel
  induction fuel with
  | zero =>
    intro v node l _ h
    exact absurd h (by simp [pathToRootGo])
  | succ n ih =>
    intro v node l hv h
    simp only [pathToRootGo] at h
    split at h
    · rename_i hp
      simp only [TxResult.ok.injEq] at h
      subst h
      exact ⟨IsRootPath.single v node hv hp, rfl⟩
    · rename_i p hp
      split at h
      · exact TxResult.noConfusion h
      · rename_i pn hg
        cases hrec : pathToRootGo forest n p pn with
        | ok t =>
          rw [hrec] at h
          simp only [TxResult.map, TxResult.ok.injEq] at h
          subst h
          obtain ⟨ht, hhead⟩ := ih p pn t hg hrec
          cases t with
          | nil => exact absurd hhead (by simp)
          | cons q t' =>
            simp only [List.head?_cons, Option.some.injEq] at hhead
            subst hhead
            exact ⟨IsRootPath.step v node q t' hv hp ht, rfl⟩
        | aborted => rw [hrec] at h; exact absurd h (by simp [TxResult.map])
        | crashed => rw [hrec] at h; exact absurd h (by simp [TxResult.map])

theorem isRootPath_unique (f : List (Nat × VersionNode)) (l1 : List Nat)
    (h1 : IsRootPath f l1) :
    ∀ l2, IsRootPath f l2 → l1.head? = l2.head? → l1 = l2 := by
  induction h1 with
  | single v n hv hp =>
    intro l2 h2 hh
    cases h2 with
    | single w m hw hq =>
      simp only [List.head?_cons, Option.some.injEq] at hh
      subst hh
      rfl
    | step w m q t hw hq h =>
      simp only [List.head?_cons, Option.some.injEq] at hh
      subst hh
      rw [hv] at hw
      simp only [Option.some.injEq] at hw
      subst hw
      rw [hp] at hq
      exact Option.noConfusion hq
  | step v n p t hv hp h ih =>
    intro l2 h2 hh
    cases h2 with
    | single w m hw hq =>
      simp only [List.head?_cons, Option.some.injEq] at hh
      subst hh
      rw [hv] at hw
      simp only [Option.some.injEq] at hw
      subst hw
      rw [hp] at hq
      exact Option.noConfusion hq
    | step w m q t2 hw hq h2r =>
      simp only [List.head?_cons, Option.some.injEq] at hh
      subst hh
      rw [hv] at hw
      simp only [Option.some.injEq] at hw
      subst hw
      rw [hp] at hq
      simp only [Option.some.injEq] at hq
      subst hq
      have := ih (p :: t2) h2r (by rfl)
      exact congrArg (List.cons v) this

theorem isRootPath_drop (f : List (Nat × VersionNode)) :
    ∀ l, IsRootPath f l → ∀ i, i < l.length → IsRootPath f (l.drop i) := by
  intro l h
  induction h with
  | single v n hv hp =>
    intro i hi
    cases i with
    | zero => exact IsRootPath.single v n hv hp
    | succ j => simp at hi
  | step v n p t hv hp h ih =>
    intro i hi
    cases i with
    | zero => exact IsRootPath.step v n p t hv hp h
    | succ j =>
      simp only [List.drop_succ_cons]
      exact ih j (by simpa using hi)

theorem head?_drop_get? {α : Type} : ∀ (l : List α) (i : Nat), (l.drop i).head? = l.get? i := by
  intro l
  induction l with
  | nil => intro i; cases i <;> rfl
  | cons x t ih =>
    intro i
    cases i with
    | zero => rfl
    | succ j =>
      simp only [List.drop_succ_cons, List.get?_cons_succ]
      exact ih j

theorem mem_index {α : Type} : ∀ (l : List α) (x : α), x ∈ l →
    ∃ i, i < l.length ∧ l.get? i = some x := by
  intro l
  induction l with
  | nil => intro x hx; exact absurd hx (by simp)
  | cons y t ih =>
    intro x hx
    rcases List.mem_cons.mp hx with rfl | hxt
    · exact ⟨0, by simp, rfl⟩
    · obtain ⟨i, hi, hget⟩ := ih x hxt
      exact ⟨i + 1, by simpa using hi, by simpa using hget⟩

theorem mem_take_index {α : Type} : ∀ (l : List α) (n : Nat) (x : α), x ∈ l.take n →
    ∃ i, i < n ∧ i < l.length ∧ l.get? i = some x := by
  intro l
  induction l with
  | nil => intro n x hx; simp at hx
  | cons y t ih =>
    intro n x hx
    cases n with
    | zero => simp at hx
    | succ k =>
      simp only [List.take_succ_cons] at hx
      rcases List.mem_cons.mp hx with rfl | hxt
      · exact ⟨0, by simp, by simp, rfl⟩
      · obtain ⟨i, hik, hil, hget⟩ := ih k x hxt
        exact ⟨i + 1, by omega, by simpa using hil, by simpa using hget⟩

theorem isRootPath_nodup (f : List (Nat × VersionNode)) :
    ∀ l, IsRootPath f l → l.Nodup := by
  intro l h
  induction h with
  | single v n hv hp => simp
  | step v n p t hv hp h ih =>
    refine List.nodup_cons.mpr ⟨?_, ih⟩
    intro hv_mem
    obtain ⟨i, hi, hget⟩ := mem_index (p :: t) v hv_mem
    have hdrop : IsRootPath f ((p :: t).drop i) := isRootPath_drop f (p :: t) h i hi
    have hhead : ((p :: t).drop i).head? = some v := by
      rw [head?_drop_get?]
      exact hget
    have hfull : IsRootPath f (v :: p :: t) := IsRootPath.step v n p t hv hp h
    have heq := isRootPath_unique f (v :: p :: t) hfull ((p :: t).drop i) hdrop
      (by rw [hhead]; rfl)
    have hlen : (v :: p :: t).length = ((p :: t).drop i).length := by rw [heq]
    simp only [List.length_cons, List.length_drop] at hlen
    omega

theorem isRootPath_get?_inj (f : List (Nat × VersionNode)) (l : List Nat)
    (h : IsRootPath f l) (i j : Nat) (hi : i < l.length) (hj : j < l.length)
    (heq : l.get? i = l.get? j) : i = j := by
  have hdi : IsRootPath f (l.drop i) := isRootPath_drop f l h i hi
  have hdj : IsRootPath f (l.drop j) := isRootPath_drop f l h j hj
  have hh : (l.drop i).head? = (l.drop j).head? := by
    rw [head?_drop_get?, head?_drop_get?, heq]
  have := isRootPath_unique f (l.drop i) hdi (l.drop j) hdj hh
  have hlen : (l.drop i).length = (l.drop j).length := by rw [this]
  simp only [List.length_drop] at hlen
  omega

theorem commonRunLen_le_left {α : Type} [DecidableEq α] :
    ∀ (a b : List α), commonRunLen a b ≤ a.length := by
  intro a
  induction a with
  | nil => intro b; cases b <;> simp [commonRunLen]
  | cons x t ih =>
    intro b
    cases b with
    | nil => simp [commonRunLen]
    | cons y u =>
      simp only [commonRunLen]
      by_cases hxy : x = y
      · rw [if_pos hxy]
        simp only [List.length_cons]
        have := ih u
        omega
      · rw [if_neg hxy]
        omega

theorem commonRunLen_le_right {α : Type} [DecidableEq α] :
    ∀ (a b : List α), commonRunLen a b ≤ b.length := by
  intro a
  induction a with
  | nil => intro b; cases b <;> simp [commonRunLen]
  | cons x t ih =>
    intro b
    cases b with
    | nil => simp [commonRunLen]
    | cons y u =>
      simp only [commonRunLen]
      by_cases hxy : x = y
      · rw [if_pos hxy]
        simp only [List.length_cons]
        have := ih u
        omega
      · rw [if_neg hxy]
        omega

theorem commonRunLen_take {α : Type} [DecidableEq α] :
    ∀ (a b : List α), a.take (commonRunLen a b) = b.take (commonRunLen a b) := by
  intro a
  induction a with
  | nil => intro b; cases b <;> simp [commonRunLen]
  | cons x t ih =>
    intro b
    cases b with
    | nil => simp [commonRunLen]
    | cons y u =>
      simp only [commonRunLen]
      by_cases hxy : x = y
      · rw [if_pos hxy]
        simp only [List.take_succ_cons, hxy, ih u]
      · rw [if_neg hxy]
        simp

theorem le_commonRunLen_of_take_eq {α : Type} [DecidableEq α] :
    ∀ (k : Nat) (a b : List α), k ≤ a.length → a.take k = b.take k →
      k ≤ commonRunLen a b := by
  intro k
  induction k with
  | zero => intro a b _ _; exact Nat.zero_le _
  | succ j ih =>
    intro a b hk htake
    cases a with
    | nil => simp at hk
    | cons x t =>
      cases b with
      | nil => simp at htake
      | cons y u =>
        simp only [List.take_succ_cons, List.cons.injEq] at htake
        obtain ⟨hxy, ht⟩ := htake
        simp only [commonRunLen, if_pos hxy]
        have := ih t u (by simpa using hk) ht
        omega

theorem commonRunLen_pos {α : Type} [DecidableEq α] (a b : List α) (x : α)
    (ha : a.head? = some x) (hb : b.head? = some x) : 1 ≤ commonRunLen a b := by
  cases a with
  | nil => simp at ha
  | cons p t =>
    cases b with
    | nil => simp at hb
    | cons q u =>
      simp only [List.head?_cons, Option.some.injEq] at ha hb
      subst ha; subst hb
      simp only [commonRunLen]
      rw [if_pos trivial]
      omega

theorem getLast?_take_succ {α : Type} :
    ∀ (l : List α) (i : Nat), i < l.length → (l.take (i + 1)).getLast? = l.get? i := by
  intro l
  induction l with
  | nil => intro i hi; simp at hi
  | cons x t ih =>
    intro i hi
    cases i with
    | zero => simp
    | succ j =>
      cases t with
      | nil => simp at hi
      | cons y t' =>
        simp only [List.take_succ_cons]
        rw [List.getLast?_cons_cons]
        have hj : j < (y :: t').length := by simpa using hi
        have := ih j hj
        simp only [List.take_succ_cons] at this ⊢
        rw [this]
        rfl

theorem reverse_drop_eq_take {α : Type} :
    ∀ (l : List α) (n : Nat), (l.drop n).reverse = l.reverse.take (l.length - n) := by
  intro l
  induction l with
  | nil => intro n; simp
  | cons x t ih =>
    intro n
    cases n with
    | zero =>
      simp only [List.drop_zero, List.length_cons, Nat.sub_zero]
      rw [List.take_of_length_le (by simp)]
    | succ k =>
      simp only [List.drop_succ_cons, List.reverse_cons, List.length_cons,
        Nat.succ_sub_succ]
      rw [ih k]
      rw [List.take_append_of_le_length (by simp)]

theorem findPathBetween_shape (cv tv : Nat) (s : Sys) (path : List Nat)
    (h : findPathBetweenVersions cv tv s = .ok (.pathExists path)) :
    path.head? = some cv ∧ path.getLast? = some tv ∧ path.Nodup := by
  unfold findPathBetweenVersions at h
  cases hS0 : findPathToRoot cv s with
  | aborted => rw [hS0] at h; exact absurd h (by simp [TxResult.bind])
  | crashed => rw [hS0] at h; exact absurd h (by simp [TxResult.bind])
  | ok S =>
  rw [hS0] at h
  cases hF0 : findPathToRoot tv s with
  | aborted => rw [hF0] at h; exact absurd h (by simp [TxResult.bind])
  | crashed => rw [hF0] at h; exact absurd h (by simp [TxResult.bind])
  | ok F =>
  rw [hF0] at h
  simp only [TxResult.bind] at h
  by_cases hg : S.getLast? = F.getLast?
  case neg =>
    rw [if_pos (by simpa using hg)] at h
    simp at h
  case pos =>
  rw [if_neg (by simpa using hg)] at h
  simp only [TxResult.ok.injEq, VersionPath.pathExists.injEq] at h
  -- the two root paths
  unfold findPathToRoot at hS0 hF0
  cases hSc : getE s.forest cv with
  | none => rw [hSc] at hS0; exact absurd hS0 (by simp)
  | some nc =>
  rw [hSc] at hS0
  cases hFc : getE s.forest tv with
  | none => rw [hFc] at hF0; exact absurd hF0 (by simp)
  | some nt =>
  rw [hFc] at hF0
  obtain ⟨hSrp, hShead⟩ := pathToRootGo_isRootPath s.forest (s.forest.length + 1) cv nc S hSc hS0
  obtain ⟨hFrp, hFhead⟩ := pathToRootGo_isRootPath s.forest (s.forest.length + 1) tv nt F hFc hF0
  -- abbreviations and bounds
  have hm1 : 1 ≤ commonSuffixLen S F := by
    cases hr : S.getLast? with
    | none =>
      cases S with
      | nil => simp at hShead
      | cons a S' => simp [List.getLast?_eq_none_iff] at hr
    | some r =>
      refine commonRunLen_pos S.reverse F.reverse r ?_ ?_
      · rw [List.head?_reverse]; exact hr
      · rw [List.head?_reverse]; rw [← hg]; exact hr
  have hmS : commonSuffixLen S F ≤ S.length := by
    have := commonRunLen_le_left S.reverse F.reverse
    simpa using this
  have hmF : commonSuffixLen S F ≤ F.length := by
    have := commonRunLen_le_right S.reverse F.reverse
    simpa using this
  have hSlen : 1 ≤ S.length := by
    cases S with
    | nil => simp at hShead
    | cons a S' => simp
  have hFlen : 1 ≤ F.length := by
    cases F with
    | nil => simp at hFhead
    | cons a F' => simp
  -- head of the path
  have hhead : path.head? = some cv := by
    rw [← h]
    cases S with
    | nil => simp at hShead
    | cons a S' =>
      simp only [List.head?_cons, Option.some.injEq] at hShead
      subst hShead
      simp [List.take_succ_cons]
  -- last element of the path
  have hlast : path.getLast? = some tv := by
    rw [← h]
    by_cases hFm : F.length - commonSuffixLen S F = 0
    · -- the finish path is entirely common suffix: the path ends inside S
      have hmF' : commonSuffixLen S F = F.length := by omega
      have htake := commonRunLen_take S.reverse F.reverse
      have hdropS : (S.drop (S.length - commonSuffixLen S F)).reverse
          = S.reverse.take (commonSuffixLen S F) := by
        rw [reverse_drop_eq_take]
        congr 1
        omega
      have hdropF : F.drop (F.length - commonSuffixLen S F) = F := by
        rw [hFm]
        simp
      have hFrev : F.reverse.take (commonSuffixLen S F) = F.reverse := by
        rw [hmF']
        exact List.take_of_length_le (by simp)
      have hSF : S.drop (S.length - commonSuffixLen S F) = F := by
        have : (S.drop (S.length - commonSuffixLen S F)).reverse = F.reverse := by
          rw [hdropS]
          unfold commonSuffixLen
          rw [htake]
          exact hFrev
        exact List.reverse_injective this
      rw [hFm]
      simp only [List.take_zero, List.reverse_nil, List.append_nil]
      rw [getLast?_take_succ S (S.length - commonSuffixLen S F) (by omega)]
      rw [← head?_drop_get?, hSF]
      exact hFhead
    · -- the path ends with the reversed strict prefix of F
      obtain ⟨k, hk⟩ : ∃ k, F.length - commonSuffixLen S F = k + 1 :=
        ⟨F.length - commonSuffixLen S F - 1, by omega⟩
      cases F with
      | nil => simp at hFhead
      | cons b F' =>
        simp only [List.head?_cons, Option.some.injEq] at hFhead
        subst hFhead
        rw [hk]
        simp only [List.take_succ_cons, List.reverse_cons]
        rw [← List.append_assoc]
        simp
  -- no duplicates
  have hnodup : path.Nodup := by
    rw [← h]
    refine List.nodup_append.mpr ⟨?_, ?_, ?_⟩
    · exact (isRootPath_nodup s.forest S hSrp).sublist (List.take_sublist _ _)
    · exact List.nodup_reverse.mpr
        ((isRootPath_nodup s.forest F hFrp).sublist (List.take_sublist _ _))
    · intro x hxA hxB
      obtain ⟨i, hi1, hi2, hSi⟩ := mem_take_index S _ x hxA
      have hxB' : x ∈ F.take (F.length - commonSuffixLen S F) := List.mem_reverse.mp hxB
      obtain ⟨j, hj1, hj2, hFj⟩ := mem_take_index F _ x hxB'
      have hEq : S.drop i = F.drop j :=
        isRootPath_unique s.forest (S.drop i) (isRootPath_drop s.forest S hSrp i hi2)
          (F.drop j) (isRootPath_drop s.forest F hFrp j hj2)
          (by rw [head?_drop_get?, head?_drop_get?, hSi, hFj])
      have hlenEq : S.length - i = F.length - j := by
        have := congrArg List.length hEq
        simpa using this
      have htkEq : S.reverse.take (S.length - i) = F.reverse.take (F.length - j) := by
        rw [← reverse_drop_eq_take, ← reverse_drop_eq_take, hEq]
      have hL : S.length - i ≤ commonRunLen S.reverse F.reverse := by
        refine le_commonRunLen_of_take_eq (S.length - i) S.reverse F.reverse
          (by simp) ?_
        rw [htkEq, hlenEq]
      unfold commonSuffixLen at hm1 hmS hmF hi1 hj1
      omega
  exact ⟨hhead, hlast, hnodup⟩

/-- Spec-modelled: the data state associated with version `v` when the data tree holds
the state of the current version `cv` (spec 4.4 and P7): fold the stored delta chains of
each version strictly after `cv` along the forest's path from `cv` to `v` over the
current data tree. -/
def versionStateFrom (s : Sys) (cv v : Nat) : Option (List (Bytes × Bytes)) :=
  match findPathBetweenVersions cv v s with
  | .ok (.pathExists (_ :: rest)) => some (chainData s.dmap s.data rest)
  | _ => none

/-- C1: restoration correctness (P7).  Whenever `set_current_version(cv, tv)` commits,
the data tree afterwards holds exactly the state associated with `tv` (the stored delta
chains folded along the path the forest chose from `cv` to `tv`), and `tv` is the
current version afterwards. -/
theorem C1_restore_correct (s s' : Sys) (cv tv : Nat)
    (h : setCurrentVersion cv tv s = .ok s') :
    isCurrentVersion s' tv = true ∧ versionStateFrom s cv tv = some s'.data := by
  unfold setCurrentVersion at h
  split at h
  · exact absurd h (by simp)
  · rename_i hcur
    simp only [Bool.not_eq_true', Bool.not_eq_false] at hcur
    cases hfp : findPathBetweenVersions cv tv s with
    | aborted => rw [hfp] at h; exact absurd h (by simp [TxResult.bind])
    | crashed => rw [hfp] at h; exact absurd h (by simp [TxResult.bind])
    | ok vp =>
      rw [hfp] at h
      simp only [TxResult.bind] at h
      cases vp with
      | noPathExists => exact absurd h (by simp)
      | pathExists path =>
        obtain ⟨hhead, hlast, hnodup⟩ := findPathBetween_shape cv tv s path hfp
        cases path with
        | nil => simp at hhead
        | cons a rest =>
          simp only [List.head?_cons, Option.some.injEq] at hhead
          cases rest with
          | nil =>
            simp only [nudgeAlong, TxResult.ok.injEq] at h
            subst h
            simp only [List.getLast?_singleton, Option.some.injEq] at hlast
            constructor
            · rw [← hlast, hhead]
              exact hcur
            · unfold versionStateFrom
              rw [hfp]
              rfl
          | cons b rest' =>
            obtain ⟨hdata, hnone, -⟩ := nudgeAlong_run (b :: rest') a s s' hnodup h
            have hlast' : (b :: rest').getLast? = some tv := by
              rw [← hlast]
              exact List.getLast?_cons_cons.symm
            constructor
            · unfold isCurrentVersion
              rw [hnone tv hlast']
              rfl
            · unfold versionStateFrom
              rw [hfp]
              show some (chainData s.dmap s.data (b :: rest')) = some s'.data
              rw [hdata]

/-- C1 witness: a two-version tree where restoring from the current child `1` to the
root `0` commits; the resulting data tree is the associated state of `0` (the child's
stored remove-delta applied) and `0` is current afterwards. -/
theorem C1_restore_correct_witness :
    isCurrentVersion
      ⟨[(1, ⟨some 0, []⟩), (0, ⟨none, [1]⟩)],
       [(1, [[Delta.insert [9] [7]]])], [], 3⟩ 0 = true ∧
    versionStateFrom
      ⟨[(1, ⟨some 0, []⟩), (0, ⟨none, [1]⟩)],
       [(0, [[Delta.remove [9]]])], [([9], [7])], 2⟩ 1 0
      = some (⟨[(1, ⟨some 0, []⟩), (0, ⟨none, [1]⟩)],
          [(1, [[Delta.insert [9] [7]]])], [], 3⟩ : Sys).data :=
  C1_restore_correct
    ⟨[(1, ⟨some 0, []⟩), (0, ⟨none, [1]⟩)], [(0, [[Delta.remove [9]]])], [([9], [7])], 2⟩
    ⟨[(1, ⟨some 0, []⟩), (0, ⟨none, [1]⟩)], [(1, [[Delta.insert [9] [7]]])], [], 3⟩
    1 0 (by decide)

/-- C9 witness: deleting the current root and deleting a non-current root both abort
on a concrete one-root state. -/
theorem C9_delete_abort_conditions_witness :
    deleteSnapshot 0 ⟨[(0, ⟨none, []⟩)], [], [], 1⟩ = .aborted ∧
    deleteSnapshot 0 ⟨[(0, ⟨none, []⟩)], [(0, [[Delta.remove [1]]])], [], 1⟩ = .aborted :=
  ⟨(C9_delete_abort_conditions ⟨[(0, ⟨none, []⟩)], [], [], 1⟩ 0).1 (by decide),
   (C9_delete_abort_conditions ⟨[(0, ⟨none, []⟩)], [(0, [[Delta.remove [1]]])], [], 1⟩ 0).2
     ⟨none, []⟩ (by decide) rfl⟩

end SledSnapshots
